import Mathlib

/-!
A verification development for a small tree-walking interpreter written in
Rust (pipeline: lexer → recursive-descent parser → AST → symbol-resolution
pass → evaluator).  Each Rust component is shallowly embedded as an
executable Lean definition; the theorems at the end of the file settle the
spec claims against those definitions.

Modelling conventions:
* Rust `panic!` sites become `Except.error` results carrying the panic data.
* The character cursor (`Peekable<Chars>`) becomes an explicit `List Char`.
* `HashMap<String, _>` becomes an association list / name list; only
  membership and insert-replace semantics are used by the source.
* `f32` is modelled exactly (rationals plus IEEE special values); rounding
  and overflow are not modelled — every value arising in the theorems below
  is a small integer, where `f32` arithmetic is exact.
-/

namespace RustInterp

/-- Token kinds, mirroring `token.rs` `TokenType` (the variants the lexer and
parser actually use). -/
inductive TokenType where
  | EOF | NUMBER | IDENT | STRING | SEMICOLON | ILLEGAL
  | LET | PRINT | END | IF | THEN | WHILE | ELSEIF | ELSE
  | EQ | PLUS | MINUS | ASTERISK | SLASH
  | EQEQ | NOTEQ | LT | LTEQ | GT | GTEQ
  deriving DecidableEq, Repr

/-- `token.rs` `Token`: a kind together with the stored text. -/
structure Token where
  tokenType : TokenType
  tokenText : String
  deriving DecidableEq, Repr

/-- `TokenType::get_keyword_token`: case-insensitive match of the accumulated
text against the keyword set (Rust uppercases the text first). -/
def getKeywordToken (text : String) : Option TokenType :=
  let upper := String.mk (text.data.map Char.toUpper)
  if upper = "LET" then some .LET
  else if upper = "PRINT" then some .PRINT
  else if upper = "END" then some .END
  else if upper = "IF" then some .IF
  else if upper = "THEN" then some .THEN
  else if upper = "WHILE" then some .WHILE
  else if upper = "ELSEIF" then some .ELSEIF
  else if upper = "ELSE" then some .ELSE
  else none

/-- `Lexer::process_string`: consume characters up to a closing quote; the
stored text excludes the quotes.  Rust initialises `end_value` to `'"'`, so an
opening quote at the very end of input yields an empty string token rather
than the unclosed-literal panic. -/
def processString (cs : List Char) : Except String (Token × List Char) :=
  match cs.dropWhile (fun c => c ≠ '"') with
  | '"' :: rest => .ok (⟨.STRING, String.mk (cs.takeWhile (fun c => c ≠ '"'))⟩, rest)
  | _ =>
    if cs.isEmpty then .ok (⟨.STRING, ""⟩, [])
    else .error "Unclosed string literal found"

/-- `Lexer::process_number`: the start digit, further digits, and optionally a
decimal point that must be followed by at least one digit. -/
def processNumber (c : Char) (cs : List Char) : Except String (Token × List Char) :=
  let ds := cs.takeWhile Char.isDigit
  let rest := cs.dropWhile Char.isDigit
  match rest with
  | '.' :: rest2 =>
    let ds2 := rest2.takeWhile Char.isDigit
    let rest3 := rest2.dropWhile Char.isDigit
    if ds2.isEmpty then .error "Invalid number found"
    else .ok (⟨.NUMBER, String.mk (c :: ds ++ '.' :: ds2)⟩, rest3)
  | _ => .ok (⟨.NUMBER, String.mk (c :: ds)⟩, rest)

/-- `Lexer::process_alpha`: the start letter plus following alphanumerics,
classified as keyword or identifier.  (Rust uses Unicode `is_alphanumeric`;
the model uses the ASCII check, which agrees on all inputs considered.) -/
def processAlpha (c : Char) (cs : List Char) : Token × List Char :=
  let value := String.mk (c :: cs.takeWhile Char.isAlphanum)
  let rest := cs.dropWhile Char.isAlphanum
  match getKeywordToken value with
  | some t => (⟨t, value⟩, rest)
  | none => (⟨.IDENT, value⟩, rest)

/-- The dispatch on the first non-whitespace character in `Lexer::get_token`.
The `<` arm peeks for a second `<` (not `=`) to produce the `<=` token,
exactly as the Rust source does. -/
def getTokenCore : List Char → Except String (Token × List Char)
  | [] => .ok (⟨.EOF, "\x00"⟩, [])
  | c :: cs =>
    if c = '+' then .ok (⟨.PLUS, "+"⟩, cs)
    else if c = '-' then .ok (⟨.MINUS, "-"⟩, cs)
    else if c = '*' then .ok (⟨.ASTERISK, "*"⟩, cs)
    else if c = '/' then .ok (⟨.SLASH, "/"⟩, cs)
    else if c = '=' then
      (if cs.head? = some '=' then .ok (⟨.EQEQ, "=="⟩, cs.tail)
       else .ok (⟨.EQ, "="⟩, cs))
    else if c = '>' then
      (if cs.head? = some '=' then .ok (⟨.GTEQ, ">="⟩, cs.tail)
       else .ok (⟨.GT, ">"⟩, cs))
    else if c = '<' then
      (if cs.head? = some '<' then .ok (⟨.LTEQ, "<="⟩, cs.tail)
       else .ok (⟨.LT, "<"⟩, cs))
    else if c = '!' then
      (if cs.head? = some '=' then .ok (⟨.NOTEQ, "!="⟩, cs.tail)
       else .error "Invalid token found")
    else if c = '"' then processString cs
    else if c.isDigit then processNumber c cs
    else if c.isAlpha then .ok (processAlpha c cs)
    else if c = ';' then .ok (⟨.SEMICOLON, ";"⟩, cs)
    else .ok (⟨.ILLEGAL, ""⟩, cs)

/-- `Lexer::get_token`: skip whitespace, then dispatch on the next
character. -/
def getToken (cs : List Char) : Except String (Token × List Char) :=
  getTokenCore (cs.dropWhile Char.isWhitespace)

/-- Repeated `get_token` calls until the EOF token, with fuel (the Rust loop
terminates because every call consumes input; the fuel is a bound on the
number of tokens). The EOF token is kept as the stream terminator. -/
def tokenize : Nat → List Char → Except String (List Token)
  | 0, _ => .error "token fuel exhausted"
  | fuel + 1, cs =>
    match getToken cs with
    | .error e => .error e
    | .ok (tok, rest) =>
      if tok.tokenType = .EOF then .ok [tok]
      else
        match tokenize fuel rest with
        | .error e => .error e
        | .ok ts => .ok (tok :: ts)

/-! ## AST (`ast.rs`)

`Box` indirections are flattened; `Vec<Statement>` becomes the `Block`
inductive of the mutual group and `Option<Box<IfStatement>>` the `OptIf`
inductive, so that structural recursion mirrors the Rust traversals. -/

inductive Operator where
  | Plus | Minus | Times | Divides
  deriving DecidableEq, Repr

inductive Comparator where
  | Equal | GreaterThan | LessThan | GreaterThanOrEqual | LessThanOrEqual | NotEqual
  deriving DecidableEq, Repr

/-- `ast.rs` `Literal`: numbers are stored as their original text. -/
inductive Literal where
  | String (s : String)
  | Number (s : String)
  deriving DecidableEq, Repr

/-- `ast.rs` `Expression` (with `BinaryOp`/`UnaryOp` structs inlined and
`Ident` reduced to its `symbol` field). -/
inductive Expression where
  | Literal (l : Literal)
  | Ident (symbol : String)
  | BinaryOp (leftTerm : Expression) (operator : Operator) (rightTerm : Expression)
  | UnaryOp (operator : Operator) (term : Expression)
  deriving DecidableEq, Repr

/-- `ast.rs` `Condition`. -/
structure Condition where
  leftExpression : Expression
  comparator : Comparator
  rightExpression : Expression
  deriving DecidableEq, Repr

mutual

/-- `ast.rs` `Statement`. -/
inductive Statement where
  | Print (e : Expression)
  | Let (ident : String) (e : Expression)
  | Assignment (ident : String) (e : Expression)
  | If (ifStatement : IfStatement)
  | While (condition : Condition) (block : Block)

/-- `ast.rs` `IfStatement`: a clause chain; the optional third component is
the next `elseif`/`else` clause. -/
inductive IfStatement where
  | If (condition : Condition) (block : Block) (other : OptIf)
  | ElseIf (condition : Condition) (block : Block) (other : OptIf)
  | Else (block : Block)

/-- `Option<Box<IfStatement>>`. -/
inductive OptIf where
  | none
  | some (s : IfStatement)

/-- `ast.rs` `Block`: an ordered statement list. -/
inductive Block where
  | nil
  | cons (s : Statement) (rest : Block)

end

/-! ## Parser (`parser.rs`)

The parser keeps a current token and a one-token lookahead, pulling further
tokens from the stream; after the stream is exhausted the lexer keeps
producing EOF tokens, which `pullToken` reproduces.  All loops and the
`parse_if` recursion are fuelled; every recursive call decreases the fuel,
and a fuel-exhaustion error can only be produced by insufficient fuel, never
by the Rust code (whose loops consume tokens). -/

structure PState where
  current : Token
  next : Token
  rest : List Token
  deriving Repr

/-- One pull from the lexer; an exhausted stream keeps yielding EOF, as
`Lexer::get_token` does at end of input. -/
def pullToken : List Token → Token × List Token
  | [] => (⟨.EOF, "\x00"⟩, [])
  | t :: ts => (t, ts)

/-- `Parser::process_next`. -/
def processNext (st : PState) : PState :=
  let (t, ts) := pullToken st.rest
  { current := st.next, next := t, rest := ts }

/-- The two priming `process_next` calls in `Parser::parse`. -/
def initParser (ts : List Token) : PState :=
  processNext (processNext ⟨⟨.ILLEGAL, ""⟩, ⟨.ILLEGAL, ""⟩, ts⟩)

/-- `Parser::check_token`. -/
def checkToken (st : PState) (tt : TokenType) : Bool :=
  st.current.tokenType = tt

/-- Debug rendering of a token type, as Rust's `{:?}` prints it. -/
def TokenType.name : TokenType → String
  | .EOF => "EOF" | .NUMBER => "NUMBER" | .IDENT => "IDENT" | .STRING => "STRING"
  | .SEMICOLON => "SEMICOLON" | .ILLEGAL => "ILLEGAL"
  | .LET => "LET" | .PRINT => "PRINT" | .END => "END" | .IF => "IF"
  | .THEN => "THEN" | .WHILE => "WHILE" | .ELSEIF => "ELSEIF" | .ELSE => "ELSE"
  | .EQ => "EQ" | .PLUS => "PLUS" | .MINUS => "MINUS" | .ASTERISK => "ASTERISK"
  | .SLASH => "SLASH" | .EQEQ => "EQEQ" | .NOTEQ => "NOTEQ"
  | .LT => "LT" | .LTEQ => "LTEQ" | .GT => "GT" | .GTEQ => "GTEQ"

/-- `Parser::match_token`. -/
def matchToken (st : PState) (tt : TokenType) : Except String PState :=
  if checkToken st tt then .ok (processNext st)
  else .error ("Syntax error! - Expected " ++ tt.name ++ " found " ++ st.current.tokenType.name)

/-- `Parser::parse_primary`: a number or identifier, then advance. -/
def parsePrimary (st : PState) : Except String (Expression × PState) :=
  match st.current.tokenType with
  | .NUMBER => .ok (.Literal (.Number st.current.tokenText), processNext st)
  | .IDENT => .ok (.Ident st.current.tokenText, processNext st)
  | _ => .error "Syntax Error! Expected number of ident"

/-- `Parser::parse_unary`: an optional leading `+`/`-` wraps the primary in a
`UnaryOp` node. -/
def parseUnary (st : PState) : Except String (Expression × PState) :=
  match st.current.tokenType with
  | .PLUS =>
    match parsePrimary (processNext st) with
    | .error e => .error e
    | .ok (p, st') => .ok (.UnaryOp .Plus p, st')
  | .MINUS =>
    match parsePrimary (processNext st) with
    | .error e => .error e
    | .ok (p, st') => .ok (.UnaryOp .Minus p, st')
  | _ => parsePrimary st

/-- The `*`/`/` folding loop of `Parser::parse_term` (left-associative). -/
def termLoop : Nat → Expression → PState → Except String (Expression × PState)
  | 0, _, _ => .error "parser fuel exhausted"
  | fuel + 1, acc, st =>
    if checkToken st .SLASH || checkToken st .ASTERISK then
      let operator : Operator := if st.current.tokenType = .ASTERISK then .Times else .Divides
      match parseUnary (processNext st) with
      | .error e => .error e
      | .ok (u, st') => termLoop fuel (.BinaryOp acc operator u) st'
    else .ok (acc, st)

/-- `Parser::parse_term`. -/
def parseTerm (fuel : Nat) (st : PState) : Except String (Expression × PState) :=
  match parseUnary st with
  | .error e => .error e
  | .ok (u, st') => termLoop fuel u st'

/-- The `+`/`-` folding loop of `Parser::parse_expression` (left-associative). -/
def exprLoop : Nat → Expression → PState → Except String (Expression × PState)
  | 0, _, _ => .error "parser fuel exhausted"
  | fuel + 1, acc, st =>
    if checkToken st .PLUS || checkToken st .MINUS then
      let operator : Operator := if st.current.tokenType = .PLUS then .Plus else .Minus
      match parseTerm fuel (processNext st) with
      | .error e => .error e
      | .ok (t, st') => exprLoop fuel (.BinaryOp acc operator t) st'
    else .ok (acc, st)

/-- `Parser::parse_expression`: a string literal is a complete expression on
its own; otherwise terms folded by `+`/`-`. -/
def parseExpression (fuel : Nat) (st : PState) : Except String (Expression × PState) :=
  match st.current.tokenType with
  | .STRING => .ok (.Literal (.String st.current.tokenText), processNext st)
  | _ =>
    match parseTerm fuel st with
    | .error e => .error e
    | .ok (t, st') => exprLoop fuel t st'

/-- `Parser::parse_condition`. -/
def parseCondition (fuel : Nat) (st : PState) : Except String (Condition × PState) :=
  match parseExpression fuel st with
  | .error e => .error e
  | .ok (l, st1) =>
    match
      (match st1.current.tokenType with
       | .EQEQ => Except.ok Comparator.Equal
       | .NOTEQ => Except.ok Comparator.NotEqual
       | .GT => Except.ok Comparator.GreaterThan
       | .GTEQ => Except.ok Comparator.GreaterThanOrEqual
       | .LT => Except.ok Comparator.LessThan
       | .LTEQ => Except.ok Comparator.LessThanOrEqual
       | _ => Except.error "Expected comparison operator to evaluate to bool")
    with
    | .error e => .error e
    | .ok comparator =>
      match parseExpression fuel (processNext st1) with
      | .error e => .error e
      | .ok (r, st2) => .ok (⟨l, comparator, r⟩, st2)

mutual

/-- `Parser::parse_statement`. -/
def parseStatement : Nat → PState → Except String (Statement × PState)
  | 0, _ => .error "parser fuel exhausted"
  | fuel + 1, st =>
    match st.current.tokenType with
    | .PRINT =>
      match parseExpression fuel (processNext st) with
      | .error e => .error e
      | .ok (e, st1) =>
        match matchToken st1 .SEMICOLON with
        | .error e => .error e
        | .ok st2 => .ok (.Print e, st2)
    | .LET =>
      let st1 := processNext st
      let ident := st1.current.tokenText
      match matchToken st1 .IDENT with
      | .error e => .error e
      | .ok st2 =>
        match matchToken st2 .EQ with
        | .error e => .error e
        | .ok st3 =>
          match parseExpression fuel st3 with
          | .error e => .error e
          | .ok (e, st4) =>
            match matchToken st4 .SEMICOLON with
            | .error e => .error e
            | .ok st5 => .ok (.Let ident e, st5)
    | .IDENT =>
      let ident := st.current.tokenText
      match matchToken st .IDENT with
      | .error e => .error e
      | .ok st1 =>
        match matchToken st1 .EQ with
        | .error e => .error e
        | .ok st2 =>
          match parseExpression fuel st2 with
          | .error e => .error e
          | .ok (e, st3) =>
            match matchToken st3 .SEMICOLON with
            | .error e => .error e
            | .ok st4 => .ok (.Assignment ident e, st4)
    | .IF =>
      match parseIf fuel st with
      | .error e => .error e
      | .ok (ifs, st1) => .ok (.If ifs, st1)
    | .WHILE =>
      match parseCondition fuel (processNext st) with
      | .error e => .error e
      | .ok (condition, st1) =>
        match matchToken st1 .THEN with
        | .error e => .error e
        | .ok st2 =>
          match bodyLoop fuel st2 with
          | .error e => .error e
          | .ok (block, st3) =>
            match matchToken st3 .END with
            | .error e => .error e
            | .ok st4 => .ok (.While condition block, st4)
    | t => .error ("Invalid statement found - " ++ t.name)
termination_by structural fuel => fuel

/-- The statement loop of the `WHILE` arm of `parse_statement`: statements
until an `END` token. -/
def bodyLoop : Nat → PState → Except String (Block × PState)
  | 0, _ => .error "parser fuel exhausted"
  | fuel + 1, st =>
    if checkToken st .END then .ok (.nil, st)
    else
      match parseStatement fuel st with
      | .error e => .error e
      | .ok (s, st1) =>
        match bodyLoop fuel st1 with
        | .error e => .error e
        | .ok (b, st2) => .ok (.cons s b, st2)
termination_by structural fuel => fuel

/-- `Parser::parse_if`: the clause keyword is remembered; a non-`else` clause
reads a condition and `then`; the body loop collects statements until `END`,
recursing when an `elseif`/`else` keyword starts the chain tail (an `else`
clause followed by another clause is a fatal error); only the outermost `if`
consumes the `END`. -/
def parseIf : Nat → PState → Except String (IfStatement × PState)
  | 0, _ => .error "parser fuel exhausted"
  | fuel + 1, st =>
    let ctt := st.current.tokenType
    let st1 := processNext st
    match
      ((if ctt ≠ .ELSE then
        match parseCondition fuel st1 with
        | .error e => .error e
        | .ok (c, st2) =>
          match matchToken st2 .THEN with
          | .error e => .error e
          | .ok st3 => .ok (some c, st3)
      else .ok (none, st1)) : Except String (Option Condition × PState))
    with
    | .error e => .error e
    | .ok (condition, st2) =>
      match ifBodyLoop fuel ctt st2 with
      | .error e => .error e
      | .ok (block, other, st3) =>
        match (if ctt = .IF then matchToken st3 .END else .ok st3) with
        | .error e => .error e
        | .ok st4 =>
          match ctt, condition with
          | .IF, some c => .ok (.If c block other, st4)
          | .ELSEIF, some c => .ok (.ElseIf c block other, st4)
          | .ELSE, _ => .ok (.Else block, st4)
          | _, _ => .error "Invalid IF statement constructed"
termination_by structural fuel => fuel

/-- The body loop of `parse_if`: statements until `END`, with `elseif`/`else`
parsed recursively into the (single, overwritten) chain tail. -/
def ifBodyLoop : Nat → TokenType → PState → Except String (Block × OptIf × PState)
  | 0, _, _ => .error "parser fuel exhausted"
  | fuel + 1, ctt, st =>
    if checkToken st .END then .ok (.nil, .none, st)
    else
      if checkToken st .ELSEIF || checkToken st .ELSE then
        if ctt = .ELSE then .error "Invalid elseif"
        else
          match parseIf fuel st with
          | .error e => .error e
          | .ok (o, st1) =>
            match ifBodyLoop fuel ctt st1 with
            | .error e => .error e
            | .ok (b, o', st2) =>
              -- Rust overwrites `other` on each tail parse; a later tail
              -- parse (possible only if the tail did not stop at END)
              -- replaces an earlier one.
              .ok (b, (match o' with | .none => OptIf.some o | _ => o'), st2)
      else
        match parseStatement fuel st with
        | .error e => .error e
        | .ok (s, st1) =>
          match ifBodyLoop fuel ctt st1 with
          | .error e => .error e
          | .ok (b, o', st2) => .ok (.cons s b, o', st2)
termination_by structural fuel => fuel

end

/-- The statement loop of `Parser::parse_program`: statements until EOF. -/
def programLoop : Nat → PState → Except String (Block × PState)
  | 0, _ => .error "parser fuel exhausted"
  | fuel + 1, st =>
    if checkToken st .EOF then .ok (.nil, st)
    else
      match parseStatement fuel st with
      | .error e => .error e
      | .ok (s, st1) =>
        match programLoop fuel st1 with
        | .error e => .error e
        | .ok (b, st2) => .ok (.cons s b, st2)

/-- `Parser::parse`: prime the two-token window, then parse the program; the
`AbstractSyntaxTree` wrapper is just its root block. -/
def parse (fuel : Nat) (ts : List Token) : Except String Block :=
  match programLoop fuel (initParser ts) with
  | .error e => .error e
  | .ok (b, _) => .ok b

/-! ## The `f32` value model

Values flow through the evaluator as text and are parsed with
`str::parse::<f32>()` at arithmetic/comparison sites.  The model represents
an `f32` as an exact rational or one of the IEEE special values; decimal
parsing is exact (no rounding) and overflow to infinity is not modelled.
Every numeric value arising in the theorems below is a small integer, for
which `f32` parsing, arithmetic and formatting are exact, so the model and
the machine type agree on all inputs the theorems touch. -/

/-- An exact (not necessarily reduced) fraction: numerator over a positive
natural denominator.  Used instead of Mathlib's `Rat` so that every
operation reduces in the kernel (`Rat`'s arithmetic is irreducible). -/
structure Frac where
  num : Int
  den : Nat
  deriving DecidableEq, Repr

namespace Frac

/-- A whole number. -/
def ofInt (n : Int) : Frac := ⟨n, 1⟩

def isZero (q : Frac) : Bool := q.num = 0

def isPos (q : Frac) : Bool := 0 < q.num

def isNeg (q : Frac) : Bool := q.num < 0

def neg (q : Frac) : Frac := ⟨-q.num, q.den⟩

def add (a b : Frac) : Frac := ⟨a.num * b.den + b.num * a.den, a.den * b.den⟩

def sub (a b : Frac) : Frac := ⟨a.num * b.den - b.num * a.den, a.den * b.den⟩

def mul (a b : Frac) : Frac := ⟨a.num * b.num, a.den * b.den⟩

/-- Exact division; the caller has already excluded a zero divisor. -/
def div (a b : Frac) : Frac :=
  if b.num < 0 then ⟨-(a.num * b.den), a.den * b.num.natAbs⟩
  else ⟨a.num * b.den, a.den * b.num.natAbs⟩

/-- Cross-multiplication equality of values. -/
def beq (a b : Frac) : Bool := a.num * b.den = b.num * a.den

/-- Cross-multiplication order (denominators are positive). -/
def blt (a b : Frac) : Bool := a.num * b.den < b.num * a.den

/-- Scale by a power of ten (for exponents and decimal fractions). -/
def mulPow10 (q : Frac) (k : Nat) : Frac := ⟨q.num * (10 : Int) ^ k, q.den⟩

def divPow10 (q : Frac) (k : Nat) : Frac := ⟨q.num, q.den * 10 ^ k⟩

/-- The value is a whole number. -/
def isInt (q : Frac) : Bool := q.num % (q.den : Int) = 0

def toInt (q : Frac) : Int := q.num / (q.den : Int)

end Frac

inductive F32 where
  | finite (q : Frac)
  | inf
  | negInf
  | nan
  deriving DecidableEq, Repr

namespace F32

/-- IEEE addition on the model (finite overflow not modelled). -/
def add : F32 → F32 → F32
  | finite a, finite b => finite (a.add b)
  | nan, _ => nan | _, nan => nan
  | inf, negInf => nan | negInf, inf => nan
  | inf, _ => inf | _, inf => inf
  | negInf, _ => negInf | _, negInf => negInf

/-- IEEE subtraction on the model. -/
def sub : F32 → F32 → F32
  | finite a, finite b => finite (a.sub b)
  | nan, _ => nan | _, nan => nan
  | inf, inf => nan | negInf, negInf => nan
  | inf, _ => inf | _, inf => negInf
  | negInf, _ => negInf | _, negInf => inf

/-- IEEE multiplication on the model. -/
def mul : F32 → F32 → F32
  | finite a, finite b => finite (a.mul b)
  | nan, _ => nan | _, nan => nan
  | inf, finite b => if b.isZero then nan else if b.isPos then inf else negInf
  | finite a, inf => if a.isZero then nan else if a.isPos then inf else negInf
  | negInf, finite b => if b.isZero then nan else if b.isPos then negInf else inf
  | finite a, negInf => if a.isZero then nan else if a.isPos then negInf else inf
  | inf, inf => inf | negInf, negInf => inf
  | inf, negInf => negInf | negInf, inf => negInf

/-- IEEE division on the model: a finite value divided by (positive) zero is
`±inf` by the sign of the dividend, and `0 / 0` is `NaN`; division by a
nonzero finite value is exact. -/
def div : F32 → F32 → F32
  | finite a, finite b =>
    if b.isZero then (if a.isZero then nan else if a.isPos then inf else negInf)
    else finite (a.div b)
  | nan, _ => nan | _, nan => nan
  | inf, inf => nan | inf, negInf => nan | negInf, inf => nan | negInf, negInf => nan
  | inf, finite b => if b.isNeg then negInf else inf
  | negInf, finite b => if b.isNeg then inf else negInf
  | finite _, inf => finite (Frac.ofInt 0)
  | finite _, negInf => finite (Frac.ofInt 0)

/-- IEEE equality: `NaN` is not equal to anything, including itself. -/
def beq : F32 → F32 → Bool
  | finite a, finite b => a.beq b
  | inf, inf => true
  | negInf, negInf => true
  | _, _ => false

/-- IEEE strict less-than: any comparison with `NaN` is false. -/
def blt : F32 → F32 → Bool
  | finite a, finite b => a.blt b
  | finite _, inf => true
  | negInf, finite _ => true
  | negInf, inf => true
  | _, _ => false

/-- IEEE less-or-equal. -/
def ble (x y : F32) : Bool := blt x y || beq x y

/-- Decimal rendering of a nonintegral value: the smallest number of decimal
places that makes the scaled value integral (every `f32` has a terminating
decimal expansion; 64 places are ample). -/
def decimalString (q : Frac) : String :=
  match (List.range 64).findSome?
      (fun k => if (q.mulPow10 (k + 1)).isInt then some (k + 1) else none) with
  | some k =>
    let n := ((q.mulPow10 k).toInt).natAbs
    let digits := toString n
    let digits :=
      if digits.length ≤ k then String.mk (List.replicate (k + 1 - digits.length) '0') ++ digits
      else digits
    let intPart := String.mk (digits.data.take (digits.length - k))
    let fracPart := String.mk (digits.data.drop (digits.length - k))
    (if q.isNeg then "-" else "") ++ intPart ++ "." ++ fracPart
  | none => toString q.num ++ "/" ++ toString q.den

/-- `f32::to_string()` on the model: `inf`/`-inf`/`NaN` render as Rust
renders them; an integral value renders without a decimal point (Rust's
shortest-round-trip formatting prints small integers plainly). -/
def render : F32 → String
  | nan => "NaN"
  | inf => "inf"
  | negInf => "-inf"
  | finite q => if q.isInt then toString q.toInt else decimalString q

end F32

/-! ## `str::parse::<f32>()` -/

/-- Fold a digit run into a natural number. -/
def digitsToNat (ds : List Char) : Nat :=
  ds.foldl (fun acc c => acc * 10 + (c.toNat - '0'.toNat)) 0

/-- The exponent suffix of the float grammar: nothing, or `e`/`E`, an optional
sign and a nonempty digit run, which scales the mantissa by a power of ten. -/
def parseExponent (q : Frac) (cs : List Char) : Option Frac :=
  match cs with
  | [] => some q
  | e :: rest =>
    if e = 'e' || e = 'E' then
      let (neg, rest2) :=
        match rest with
        | '+' :: r => (false, r)
        | '-' :: r => (true, r)
        | r => (false, r)
      let ds := rest2.takeWhile Char.isDigit
      if ds.isEmpty || !(rest2.dropWhile Char.isDigit).isEmpty then none
      else
        let ex := digitsToNat ds
        some (if neg then q.divPow10 ex else q.mulPow10 ex)
    else none

/-- The decimal part of the float grammar: `Digit* '.'? Digit*` with at least
one digit, then the optional exponent. -/
def parseDecimal (cs : List Char) : Option Frac :=
  let ip := cs.takeWhile Char.isDigit
  let r1 := cs.dropWhile Char.isDigit
  match r1 with
  | '.' :: r2 =>
    let fp := r2.takeWhile Char.isDigit
    let r3 := r2.dropWhile Char.isDigit
    if ip.isEmpty && fp.isEmpty then none
    else
      parseExponent
        ((Frac.ofInt (digitsToNat ip)).add ((Frac.ofInt (digitsToNat fp)).divPow10 fp.length)) r3
  | _ =>
    if ip.isEmpty then none
    else parseExponent (Frac.ofInt (digitsToNat ip)) r1

/-- Case-insensitive match of the special float words. -/
def parseSpecial (cs : List Char) : Option F32 :=
  let lower := String.mk (cs.map Char.toLower)
  if lower = "inf" || lower = "infinity" then some .inf
  else if lower = "nan" then some .nan
  else none

/-- The optional leading sign of the float grammar: (is-negative, rest). -/
def stripSign : List Char → Bool × List Char
  | '+' :: r => (false, r)
  | '-' :: r => (true, r)
  | r => (false, r)

/-- `str::parse::<f32>()` modelled exactly: optional sign, then a special
word or a decimal mantissa with optional exponent; everything else is a
parse error.  The two error descriptions are the ones `ParseFloatError`
displays. -/
def parseF32 (s : String) : Except String F32 :=
  if s.isEmpty then .error "cannot parse float from empty string"
  else
    let p := stripSign s.data
    match parseSpecial p.2 with
    | some f =>
      .ok (if p.1 then (match f with | .inf => .negInf | f => f) else f)
    | none =>
      match parseDecimal p.2 with
      | some q => .ok (.finite (if p.1 then q.neg else q))
      | none => .error "invalid float literal"

/-! ## Symbol resolver (`symbol.rs`)

The `HashMap<String, Symbol>` keyed by the symbol's own name is modelled as
the list of defined names (insertion replaces an existing entry, so the key
set is all that matters).  Panics become errors.  Note the `If` arm: only
the matched clause's block is processed — the chain tail (third component)
is dropped by the `_` pattern, exactly as in the source. -/

/-- `SymbolTable::define_symbol`: keyed insertion (idempotent on the key
set). -/
def defineSymbol (tbl : List String) (name : String) : List String :=
  if tbl.contains name then tbl else tbl ++ [name]

mutual

/-- `SymbolTable::process_statement`. -/
def resolveStatement : List String → Statement → Except String (List String)
  | tbl, .Let ident _ => .ok (defineSymbol tbl ident)
  | tbl, .Assignment ident _ =>
    if tbl.contains ident then .ok tbl
    else .error ("Referenced symbol " ++ ident ++ " before assignment")
  | tbl, .If ifStatement =>
    match ifStatement with
    | .If _ block _ => resolveBlock tbl block
    | .ElseIf _ block _ => resolveBlock tbl block
    | .Else block => resolveBlock tbl block
  | tbl, .While _ block => resolveBlock tbl block
  | tbl, .Print _ => .ok tbl

/-- `SymbolTable::process_block`. -/
def resolveBlock : List String → Block → Except String (List String)
  | tbl, .nil => .ok tbl
  | tbl, .cons s rest =>
    match resolveStatement tbl s with
    | .error e => .error e
    | .ok tbl' => resolveBlock tbl' rest

end

/-! ## Evaluator (`intr.rs`) -/

/-- The evaluator's runtime panics, as structured data. -/
inductive RtErr where
  | invalidNumber (err : String)
  | useBeforeAssignment (name : String)
  | assignUnidentified (name : String)
  | fuelOut
  deriving DecidableEq, Repr

/-- The panic message each `RtErr` renders to (`fuelOut` is a model artifact
standing for a never-terminating loop and has no Rust message). -/
def RtErr.message : RtErr → String
  | .invalidNumber err => "Invalid number used in binary op - " ++ err
  | .useBeforeAssignment name => "Attempted to use a variable before assignment - " ++ name
  | .assignUnidentified name => "Attempted to assign to an unidentified variable - " ++ name
  | .fuelOut => "evaluation fuel exhausted"

/-- The evaluator's `global_scope` map: association list with insert-replace
semantics. -/
abbrev Scope := List (String × String)

/-- `HashMap::insert`. -/
def scopeInsert (sc : Scope) (k v : String) : Scope :=
  match sc with
  | [] => [(k, v)]
  | (k', v') :: rest => if k' = k then (k, v) :: rest else (k', v') :: scopeInsert rest k v

/-- `HashMap::get`. -/
def scopeGet (sc : Scope) (k : String) : Option String :=
  match sc with
  | [] => none
  | (k', v) :: rest => if k' = k then some v else scopeGet rest k

/-- `Interpreter::process_literal`: both literal kinds return their stored
text verbatim. -/
def processLiteral : Literal → String
  | .String s => s
  | .Number s => s

/-- The arithmetic dispatch at the end of `Interpreter::process_binary_op`. -/
def applyOperator : Operator → F32 → F32 → F32
  | .Plus, a, b => a.add b
  | .Minus, a, b => a.sub b
  | .Times, a, b => a.mul b
  | .Divides, a, b => a.div b

/-- The comparison dispatch at the end of `Interpreter::process_condition`. -/
def applyComparator : Comparator → F32 → F32 → Bool
  | .Equal, a, b => a.beq b
  | .NotEqual, a, b => !(a.beq b)
  | .GreaterThan, a, b => b.blt a
  | .GreaterThanOrEqual, a, b => b.ble a
  | .LessThan, a, b => a.blt b
  | .LessThanOrEqual, a, b => a.ble b

/-- `Interpreter::process_expression`.  Expression evaluation reads the scope
and mutates nothing.  In the `UnaryOp` arm the Rust `.parse()` call infers
`String` as its target type (the surrounding match must produce the method's
`String` return value), and `String`'s `FromStr` is infallible — so the arm
returns the operand's value unchanged and the stored operator is never
consulted.  The `BinaryOp` arm is `process_binary_op`: each operand is
evaluated and parsed as `f32` (left first, so a left-operand fault wins),
and the parse-failure panic carries the `ParseFloatError` description, not
the offending text. -/
def processExpression (sc : Scope) : Expression → Except RtErr String
  | .Literal l => .ok (processLiteral l)
  | .Ident symbol =>
    match scopeGet sc symbol with
    | some val => .ok val
    | none => .error (.useBeforeAssignment symbol)
  | .UnaryOp _ term => processExpression sc term
  | .BinaryOp leftTerm operator rightTerm =>
    match processExpression sc leftTerm with
    | .error e => .error e
    | .ok lv =>
      match parseF32 lv with
      | .error err => .error (.invalidNumber err)
      | .ok leftExpression =>
        match processExpression sc rightTerm with
        | .error e => .error e
        | .ok rv =>
          match parseF32 rv with
          | .error err => .error (.invalidNumber err)
          | .ok rightExpression =>
            .ok (F32.render (applyOperator operator leftExpression rightExpression))

/-- `Interpreter::process_binary_op` (the `BinaryOp` arm of
`process_expression`, named as in the source). -/
def processBinaryOp (sc : Scope) (leftTerm : Expression) (operator : Operator)
    (rightTerm : Expression) : Except RtErr String :=
  processExpression sc (.BinaryOp leftTerm operator rightTerm)

/-- `Interpreter::process_condition`: both sides evaluated and parsed as
`f32` (with the same panic as `process_binary_op`), then compared. -/
def processCondition (sc : Scope) (c : Condition) : Except RtErr Bool :=
  match processExpression sc c.leftExpression with
  | .error e => .error e
  | .ok lv =>
    match parseF32 lv with
    | .error err => .error (.invalidNumber err)
    | .ok leftExpression =>
      match processExpression sc c.rightExpression with
      | .error e => .error e
      | .ok rv =>
        match parseF32 rv with
        | .error err => .error (.invalidNumber err)
        | .ok rightExpression =>
          .ok (applyComparator c.comparator leftExpression rightExpression)

/-- The evaluator's mutable state: the resolver's symbol table, the runtime
variable store, and the lines printed so far (in order). -/
structure EvalSt where
  symbols : List String
  scope : Scope
  output : List String
  deriving Repr

/-- `Interpreter::process_assignment` (used for both `Let` and `Assignment`):
evaluate the expression first, then fail if the name is not in the symbol
table, else store the text. -/
def processAssignment (st : EvalSt) (ident : String) (e : Expression) :
    Except RtErr EvalSt :=
  match processExpression st.scope e with
  | .error err => .error err
  | .ok value =>
    if st.symbols.contains ident then
      .ok { st with scope := scopeInsert st.scope ident value }
    else .error (.assignUnidentified ident)

mutual

/-- `Interpreter::process_block`.  All statement-level functions are fuelled;
fuel decreases on every recursive call, and `fuelOut` stands for a loop the
Rust program would simply keep running. -/
def processBlock : Nat → EvalSt → Block → Except RtErr EvalSt
  | 0, _, _ => .error .fuelOut
  | _ + 1, st, .nil => .ok st
  | fuel + 1, st, .cons s rest =>
    match processStatement fuel st s with
    | .error e => .error e
    | .ok st' => processBlock fuel st' rest

/-- `Interpreter::process_statement`. -/
def processStatement : Nat → EvalSt → Statement → Except RtErr EvalSt
  | 0, _, _ => .error .fuelOut
  | fuel + 1, st, stmt =>
    match stmt with
    | .Print e =>
      match processExpression st.scope e with
      | .error err => .error err
      | .ok value => .ok { st with output := st.output ++ [value] }
    | .Let ident e => processAssignment st ident e
    | .Assignment ident e => processAssignment st ident e
    | .If ifStatement =>
      match ifStatement with
      | .If condition block other => processIf fuel st condition block other
      | .ElseIf condition block other => processIf fuel st condition block other
      | .Else block => processBlock fuel st block
    | .While condition block => processWhile fuel st condition block

/-- The `while` loop in the `While` arm of `process_statement`. -/
def processWhile : Nat → EvalSt → Condition → Block → Except RtErr EvalSt
  | 0, _, _, _ => .error .fuelOut
  | fuel + 1, st, condition, block =>
    match processCondition st.scope condition with
    | .error e => .error e
    | .ok cv =>
      if cv then
        match processBlock fuel st block with
        | .error e => .error e
        | .ok st' => processWhile fuel st' condition block
      else .ok st

/-- `Interpreter::process_if`. -/
def processIf : Nat → EvalSt → Condition → Block → OptIf → Except RtErr EvalSt
  | 0, _, _, _, _ => .error .fuelOut
  | fuel + 1, st, condition, block, other =>
    match processCondition st.scope condition with
    | .error e => .error e
    | .ok cv =>
      if cv then processBlock fuel st block
      else
        match other with
        | .some elseIfStatement => processElseIf fuel st elseIfStatement
        | .none => .ok st

/-- `Interpreter::process_else_if`. -/
def processElseIf : Nat → EvalSt → IfStatement → Except RtErr EvalSt
  | 0, _, _ => .error .fuelOut
  | fuel + 1, st, ifStatement =>
    match ifStatement with
    | .If condition block other => processIf fuel st condition block other
    | .ElseIf condition block other => processIf fuel st condition block other
    | .Else block => processBlock fuel st block

end

/-- `Interpreter::interpret` over source text: tokenize, parse, resolve, then
execute the root block; the result is the printed lines.  A fault at any
stage aborts with its message and nothing past it runs. -/
def run (source : String) (fuel : Nat) : Except String (List String) :=
  match tokenize fuel source.data with
  | .error e => .error e
  | .ok ts =>
    match parse fuel ts with
    | .error e => .error e
    | .ok b =>
      match resolveBlock [] b with
      | .error e => .error e
      | .ok tbl =>
        match processBlock fuel ⟨tbl, [], []⟩ b with
        | .error e => .error e.message
        | .ok st => .ok st.output

/-! ## Pipeline helpers for stating claims about single expressions -/

/-- Tokenize a source string, prime the parser, and run `parse_expression`
on it (the path a claim about "evaluating an expression" exercises). -/
def parseExpressionSource (s : String) (fuel : Nat) : Except String Expression :=
  match tokenize fuel s.data with
  | .error e => .error e
  | .ok ts =>
    match parseExpression fuel (initParser ts) with
    | .error e => .error e
    | .ok (e, _) => .ok e

/-- Parse a source expression and evaluate it with an empty scope. -/
def evalExpressionSource (s : String) (fuel : Nat) : Except String String :=
  match parseExpressionSource s fuel with
  | .error e => .error e
  | .ok e =>
    match processExpression [] e with
    | .error r => .error r.message
    | .ok v => .ok v

/-- Tokenize and parse a program, then run only the symbol-resolution pass. -/
def resolveSource (s : String) (fuel : Nat) : Except String (List String) :=
  match tokenize fuel s.data with
  | .error e => .error e
  | .ok ts =>
    match parse fuel ts with
    | .error e => .error e
    | .ok b => resolveBlock [] b

/-! ## Spec-side notions used to state the claims -/

/-- `needle` begins `hay`. -/
def listLeads : List Char → List Char → Bool
  | [], _ => true
  | _ :: _, [] => false
  | a :: as, b :: bs => a = b && listLeads as bs

/-- `needle` occurs contiguously inside `hay` (the "message names the
offending text" notion). -/
def listWithin (needle : List Char) : List Char → Bool
  | [] => needle.isEmpty
  | b :: bs => listLeads needle (b :: bs) || listWithin needle bs

/-- Identifiers read by an expression. -/
def exprIdents : Expression → List String
  | .Literal _ => []
  | .Ident symbol => [symbol]
  | .BinaryOp l _ r => exprIdents l ++ exprIdents r
  | .UnaryOp _ t => exprIdents t

/-- Identifiers read by a condition. -/
def condIdents (c : Condition) : List String :=
  exprIdents c.leftExpression ++ exprIdents c.rightExpression

/-- Every element of `xs` is in `env`. -/
def allContained (xs env : List String) : Bool :=
  xs.all env.contains

mutual

/-- The `let`-declared names at the positions the resolver visits: top level,
`while` bodies and each `if` chain's first-clause body, recursively —
elseif/else tail clauses excluded. -/
def blockLetNames : Block → List String
  | .nil => []
  | .cons s rest => stmtLetNames s ++ blockLetNames rest

def stmtLetNames : Statement → List String
  | .Let ident _ => [ident]
  | .Assignment _ _ => []
  | .Print _ => []
  | .If ifStatement => chainFirstLetNames ifStatement
  | .While _ block => blockLetNames block

def chainFirstLetNames : IfStatement → List String
  | .If _ block _ => blockLetNames block
  | .ElseIf _ block _ => blockLetNames block
  | .Else block => blockLetNames block

end

mutual

/-- Check that a block appearing inside an elseif/else tail clause declares
nothing (`let` is forbidden at any depth, since the resolver never visits
it) and that every identifier it assigns or uses is already in `env`. -/
def tailBlockOK (env : List String) : Block → Bool
  | .nil => true
  | .cons s rest => tailStmtOK env s && tailBlockOK env rest

def tailStmtOK (env : List String) : Statement → Bool
  | .Print e => allContained (exprIdents e) env
  | .Let _ _ => false
  | .Assignment ident e => env.contains ident && allContained (exprIdents e) env
  | .If ifStatement => tailChainOK env ifStatement
  | .While c block => allContained (condIdents c) env && tailBlockOK env block

def tailChainOK (env : List String) : IfStatement → Bool
  | .If c block other => allContained (condIdents c) env && tailBlockOK env block && tailOptOK env other
  | .ElseIf c block other => allContained (condIdents c) env && tailBlockOK env block && tailOptOK env other
  | .Else block => tailBlockOK env block

def tailOptOK (env : List String) : OptIf → Bool
  | .none => true
  | .some s => tailChainOK env s

end

mutual

/-- Modelled from the amended claim's words: a traversal in source order
accumulating the declared names, requiring every identifier to be declared
by a `let` before it is assigned or used, and requiring that no `let`
appears inside an elseif/else tail clause body.  Returns the declared-name
set after the block, or `none` on a violation. -/
def declCheckBlock : List String → Block → Option (List String)
  | env, .nil => some env
  | env, .cons s rest =>
    match declCheckStmt env s with
    | none => none
    | some env' => declCheckBlock env' rest

def declCheckStmt : List String → Statement → Option (List String)
  | env, .Print e => if allContained (exprIdents e) env then some env else none
  | env, .Let ident e =>
    if allContained (exprIdents e) env then some (defineSymbol env ident) else none
  | env, .Assignment ident e =>
    if env.contains ident && allContained (exprIdents e) env then some env else none
  | env, .If ifStatement => declCheckChain env ifStatement
  | env, .While c block =>
    if allContained (condIdents c) env then declCheckBlock env block else none

def declCheckChain : List String → IfStatement → Option (List String)
  | env, .If c block other =>
    if allContained (condIdents c) env then
      match declCheckBlock env block with
      | none => none
      | some env' => if tailOptOK env' other then some env' else none
    else none
  | env, .ElseIf c block other =>
    if allContained (condIdents c) env then
      match declCheckBlock env block with
      | none => none
      | some env' => if tailOptOK env' other then some env' else none
    else none
  | env, .Else block => declCheckBlock env block

end

mutual

/-- Every `let`/assignment target anywhere in the block (all clauses, all
nesting depths) is present in `tbl` — the condition under which the
evaluator's `process_assignment` can never panic on its table lookup. -/
def blockTargetsIn (tbl : List String) : Block → Bool
  | .nil => true
  | .cons s rest => stmtTargetsIn tbl s && blockTargetsIn tbl rest

def stmtTargetsIn (tbl : List String) : Statement → Bool
  | .Print _ => true
  | .Let ident _ => tbl.contains ident
  | .Assignment ident _ => tbl.contains ident
  | .If ifStatement => chainTargetsIn tbl ifStatement
  | .While _ block => blockTargetsIn tbl block

def chainTargetsIn (tbl : List String) : IfStatement → Bool
  | .If _ block other => blockTargetsIn tbl block && optTargetsIn tbl other
  | .ElseIf _ block other => blockTargetsIn tbl block && optTargetsIn tbl other
  | .Else block => blockTargetsIn tbl block

def optTargetsIn (tbl : List String) : OptIf → Bool
  | .none => true
  | .some s => chainTargetsIn tbl s

end

/-- The runtime fault classes of the amended claim C1: an operand-type
mismatch, a use of a variable not yet assigned, or (a model artifact) fuel
exhaustion standing for a loop the Rust program would keep running. -/
def BenignFault (r : RtErr) : Prop :=
  (∃ m, r = RtErr.invalidNumber m) ∨ (∃ n, r = RtErr.useBeforeAssignment n) ∨ r = RtErr.fuelOut

/-! # Claim theorems and witnesses -/

/-- C3, counterexample to the claim as stated: the claim says the `UnaryOp`
arm parses its operand as a number, but the operand "abc" is not parseable
as a number and evaluation nevertheless succeeds, returning it unchanged —
no numeric parse happens in that arm. -/
theorem spec_C3_cex :
    processExpression [("s", "abc")] (.UnaryOp .Minus (.Ident "s")) = .ok "abc"
    ∧ parseF32 "abc" = .error "invalid float literal" :=
  ⟨rfl, rfl⟩

/-- C3 (amended): evaluating a `UnaryOp` expression returns its operand's
evaluated value unchanged, for either stored operator — the operator is
never applied (so unary minus does not negate), and no numeric parse occurs
(the Rust `.parse()` there infers target type `String`, whose parse is
infallible), so a non-numeric operand passes through without fault. -/
theorem spec_C3 (sc : Scope) (op : Operator) (t : Expression) :
    processExpression sc (.UnaryOp op t) = processExpression sc t :=
  rfl

/-- C4: on reading `<` the tokenizer produces the two-character `<=` token
exactly when the next character is a second `<` (which is consumed), and the
one-character `<` token when the next character is anything else — including
`=` — or when input ends. -/
theorem spec_C4 :
    (∀ cs : List Char, getToken ('<' :: '<' :: cs) = .ok (⟨.LTEQ, "<="⟩, cs))
    ∧ (∀ (c : Char) (cs : List Char), c ≠ '<' →
        getToken ('<' :: c :: cs) = .ok (⟨.LT, "<"⟩, c :: cs))
    ∧ getToken ['<'] = .ok (⟨.LT, "<"⟩, ([] : List Char)) := by
  refine ⟨fun cs => rfl, fun c cs h => ?_, rfl⟩
  simp [getToken, getTokenCore, List.dropWhile, h]

/-- C4 witness: the `<` of `<=` is tokenized as the one-character less-than
token, leaving the `=` unconsumed. -/
theorem spec_C4_witness :
    getToken ['<', '='] = .ok (⟨.LT, "<"⟩, ['=']) :=
  spec_C4.2.1 '=' [] (by decide)

/-- C5, counterexample to the claim as stated: the token produced from the
lexeme `<<` is the less-than-or-equal token with stored text "<=", so
re-serializing the stored text does not reproduce the consumed lexeme. -/
theorem spec_C5_cex :
    getToken ['<', '<'] = .ok (⟨.LTEQ, "<="⟩, ([] : List Char))
    ∧ ("<=").data ≠ ['<', '<'] :=
  ⟨rfl, by decide⟩

/-- C6, counterexample to the claim as stated: a condition comparing the
string "abc" to a number faults, but the fatal message is the fixed text
"Invalid number used in binary op - invalid float literal" — the
`ParseFloatError` description — which does not name the offending text
"abc". -/
theorem spec_C6_cex :
    processCondition [] ⟨.Literal (.String "abc"), .Equal, .Literal (.Number "1")⟩
      = .error (.invalidNumber "invalid float literal")
    ∧ (RtErr.invalidNumber "invalid float literal").message
      = "Invalid number used in binary op - invalid float literal"
    ∧ listWithin ("abc").data
        ("Invalid number used in binary op - invalid float literal").data = false :=
  ⟨rfl, rfl, rfl⟩

/-- C6 (amended): whenever an operand's text fails to parse as `f32` during
a binary arithmetic operation or a condition comparison, the run aborts
with the fatal message "Invalid number used in binary op - " followed by
the parse-error description ("invalid float literal", or "cannot parse
float from empty string" for empty text) — the description, not the
offending text itself. -/
theorem spec_C6 :
    (∀ (sc : Scope) (l : Expression) (op : Operator) (r : Expression) (v m : String),
       processExpression sc l = .ok v → parseF32 v = .error m →
       processBinaryOp sc l op r = .error (.invalidNumber m))
    ∧ (∀ (sc : Scope) (l : Expression) (op : Operator) (r : Expression) (v w m : String)
         (x : F32),
       processExpression sc l = .ok v → parseF32 v = .ok x →
       processExpression sc r = .ok w → parseF32 w = .error m →
       processBinaryOp sc l op r = .error (.invalidNumber m))
    ∧ (∀ (sc : Scope) (c : Condition) (v m : String),
       processExpression sc c.leftExpression = .ok v → parseF32 v = .error m →
       processCondition sc c = .error (.invalidNumber m))
    ∧ (∀ (sc : Scope) (c : Condition) (v w m : String) (x : F32),
       processExpression sc c.leftExpression = .ok v → parseF32 v = .ok x →
       processExpression sc c.rightExpression = .ok w → parseF32 w = .error m →
       processCondition sc c = .error (.invalidNumber m))
    ∧ (∀ (s m : String), parseF32 s = .error m →
       m = "invalid float literal" ∨ m = "cannot parse float from empty string")
    ∧ (∀ m : String,
       (RtErr.invalidNumber m).message = "Invalid number used in binary op - " ++ m) := by
  refine ⟨?_, ?_, ?_, ?_, ?_, fun m => rfl⟩
  · intro sc l op r v m h1 h2
    simp only [processBinaryOp, processExpression, h1, h2]
  · intro sc l op r v w m x h1 h2 h3 h4
    simp only [processBinaryOp, processExpression, h1, h2, h3, h4]
  · intro sc c v m h1 h2
    simp only [processCondition, h1, h2]
  · intro sc c v w m x h1 h2 h3 h4
    simp only [processCondition, h1, h2, h3, h4]
  · intro s m h
    by_cases he : s.isEmpty
    · simp only [parseF32, he, if_true, if_pos] at h
      exact Or.inr (Except.error.inj h).symm
    · simp only [parseF32, he, if_false, Bool.false_eq_true, if_neg] at h
      rcases h1 : parseSpecial (stripSign s.data).2 with _ | f
      · rw [h1] at h
        rcases h2 : parseDecimal (stripSign s.data).2 with _ | q
        · rw [h2] at h
          exact Or.inl (Except.error.inj h).symm
        · rw [h2] at h
          exact absurd h (by simp)
      · rw [h1] at h
        exact absurd h (by simp)

/-- C6 witness: adding the string "abc" to a number aborts with the
parse-error message. -/
theorem spec_C6_witness :
    processBinaryOp [] (.Literal (.String "abc")) .Plus (.Literal (.Number "1"))
      = .error (.invalidNumber "invalid float literal") :=
  spec_C6.1 [] (.Literal (.String "abc")) .Plus (.Literal (.Number "1"))
    "abc" "invalid float literal" rfl rfl

/-- C7: the source expression `2 + 3 * 4` evaluates to the text "14" and
`8 - 3 - 2` to "3"; the parsed trees show `*`/`/` binding tighter than
`+`/`-`, and repeated `-` folding into a left-associative tree. -/
theorem spec_C7 :
    evalExpressionSource "2 + 3 * 4" 100 = .ok "14"
    ∧ evalExpressionSource "8 - 3 - 2" 100 = .ok "3"
    ∧ parseExpressionSource "2 + 3 * 4" 100
        = .ok (.BinaryOp (.Literal (.Number "2")) .Plus
            (.BinaryOp (.Literal (.Number "3")) .Times (.Literal (.Number "4"))))
    ∧ parseExpressionSource "8 - 3 - 2" 100
        = .ok (.BinaryOp
            (.BinaryOp (.Literal (.Number "8")) .Minus (.Literal (.Number "3")))
            .Minus (.Literal (.Number "2"))) :=
  ⟨rfl, rfl, rfl, rfl⟩

/-- C8: running `let i = 0; while i < 3 then print i; i = i + 1; end`
through the whole pipeline prints exactly the lines "0", "1", "2" in that
order and terminates (the fuel bound is not hit: the result is `ok`, not the
fuel-exhaustion error). -/
theorem spec_C8 :
    run "let i = 0; while i < 3 then print i; i = i + 1; end" 100
      = .ok ["0", "1", "2"] :=
  rfl

/-- C10: a division whose two operand texts both parse as numbers never
faults — the result is the rendered IEEE quotient, so `1 / 0` evaluates to
"inf" and `0 / 0` to "NaN" rather than raising a division-by-zero error. -/
theorem spec_C10 :
    (∀ (sc : Scope) (l r : Expression) (v w : String) (x y : F32),
       processExpression sc l = .ok v → parseF32 v = .ok x →
       processExpression sc r = .ok w → parseF32 w = .ok y →
       processBinaryOp sc l .Divides r = .ok (F32.render (x.div y)))
    ∧ evalExpressionSource "1 / 0" 100 = .ok "inf"
    ∧ evalExpressionSource "0 / 0" 100 = .ok "NaN" := by
  refine ⟨?_, rfl, rfl⟩
  intro sc l r v w x y h1 h2 h3 h4
  simp only [processBinaryOp, processExpression, h1, h2, h3, h4, applyOperator]

/-- C10 witness: dividing the literal 1 by the literal 0 yields the rendered
quotient (which is "inf"). -/
theorem spec_C10_witness :
    processBinaryOp [] (.Literal (.Number "1")) .Divides (.Literal (.Number "0"))
      = .ok (F32.render ((F32.finite ⟨1, 1⟩).div (F32.finite ⟨0, 1⟩))) :=
  spec_C10.1 [] (.Literal (.Number "1")) (.Literal (.Number "0")) "1" "0"
    (.finite ⟨1, 1⟩) (.finite ⟨0, 1⟩) rfl rfl rfl rfl

/-! ## Resolver table membership -/

theorem defineSymbol_mem (tbl : List String) (m n : String) :
    n ∈ defineSymbol tbl m ↔ (n ∈ tbl ∨ n = m) := by
  unfold defineSymbol
  by_cases h : tbl.contains m
  · have hm : m ∈ tbl := List.elem_iff.mp h
    simp only [if_pos h]
    constructor
    · exact Or.inl
    · rintro (h' | rfl)
      · exact h'
      · exact hm
  · have hm : m ∉ tbl := fun hmem => h (List.elem_iff.mpr hmem)
    simp [hm]

mutual

theorem resolveStatement_mem :
    ∀ (tbl : List String) (s : Statement) (tbl' : List String),
      resolveStatement tbl s = .ok tbl' →
      ∀ n, n ∈ tbl' ↔ (n ∈ tbl ∨ n ∈ stmtLetNames s)
  | tbl, .Let ident e, tbl', h, n => by
    unfold resolveStatement at h
    rw [Except.ok.injEq] at h
    subst h
    simpa [stmtLetNames] using defineSymbol_mem tbl ident n
  | tbl, .Assignment ident e, tbl', h, n => by
    unfold resolveStatement at h
    split at h
    · rw [Except.ok.injEq] at h
      subst h
      simp [stmtLetNames]
    · exact absurd h (by simp)
  | tbl, .Print e, tbl', h, n => by
    unfold resolveStatement at h
    rw [Except.ok.injEq] at h
    subst h
    simp [stmtLetNames]
  | tbl, .If (.If c block o), tbl', h, n => by
    have := resolveBlock_mem tbl block tbl' (by simpa [resolveStatement] using h) n
    simpa [stmtLetNames, chainFirstLetNames] using this
  | tbl, .If (.ElseIf c block o), tbl', h, n => by
    have := resolveBlock_mem tbl block tbl' (by simpa [resolveStatement] using h) n
    simpa [stmtLetNames, chainFirstLetNames] using this
  | tbl, .If (.Else block), tbl', h, n => by
    have := resolveBlock_mem tbl block tbl' (by simpa [resolveStatement] using h) n
    simpa [stmtLetNames, chainFirstLetNames] using this
  | tbl, .While c block, tbl', h, n => by
    have := resolveBlock_mem tbl block tbl' (by simpa [resolveStatement] using h) n
    simpa [stmtLetNames] using this

theorem resolveBlock_mem :
    ∀ (tbl : List String) (b : Block) (tbl' : List String),
      resolveBlock tbl b = .ok tbl' →
      ∀ n, n ∈ tbl' ↔ (n ∈ tbl ∨ n ∈ blockLetNames b)
  | tbl, .nil, tbl', h, n => by
    unfold resolveBlock at h
    rw [Except.ok.injEq] at h
    subst h
    simp [blockLetNames]
  | tbl, .cons s rest, tbl', h, n => by
    unfold resolveBlock at h
    rcases h1 : resolveStatement tbl s with e | t1
    · rw [h1] at h
      exact absurd h (by simp)
    · rw [h1] at h
      have A := resolveStatement_mem tbl s t1 h1 n
      have B := resolveBlock_mem t1 rest tbl' h n
      simp only [blockLetNames, List.mem_append]
      rw [B, A]
      tauto

end

/-- C2, counterexample to the claim as stated: the resolver's single pass
does not recurse into an if statement's elseif/else tail.  First conjunct: a
`let y` inside an `else` clause body leaves the symbol table empty ("y" is
not registered).  Second conjunct: an assignment `z = 2` inside an `else`
clause body is never checked — resolution succeeds although `z` is declared
nowhere. -/
theorem spec_C2_cex :
    resolveBlock []
      (.cons (.If (.If ⟨.Literal (.Number "1"), .Equal, .Literal (.Number "2")⟩ .nil
        (.some (.Else (.cons (.Let "y" (.Literal (.Number "1"))) .nil))))) .nil)
      = .ok []
    ∧ resolveBlock []
      (.cons (.If (.If ⟨.Literal (.Number "1"), .Equal, .Literal (.Number "2")⟩ .nil
        (.some (.Else (.cons (.Assignment "z" (.Literal (.Number "2"))) .nil))))) .nil)
      = .ok [] :=
  ⟨rfl, rfl⟩

/-- C2 (amended): the resolver recurses into `while` bodies and into the
first clause's body of each `if` statement, in source order, but ignores the
elseif/else tail chain entirely (the `other` component plays no role in the
result); every `let` at a visited position is registered in the flat
table. -/
theorem spec_C2 :
    (∀ (tbl : List String) (c : Condition) (b : Block) (o : OptIf),
       resolveStatement tbl (.If (.If c b o)) = resolveBlock tbl b)
    ∧ (∀ (tbl : List String) (c : Condition) (b : Block) (o : OptIf),
       resolveStatement tbl (.If (.ElseIf c b o)) = resolveBlock tbl b)
    ∧ (∀ (tbl : List String) (b : Block),
       resolveStatement tbl (.If (.Else b)) = resolveBlock tbl b)
    ∧ (∀ (tbl : List String) (c : Condition) (b : Block),
       resolveStatement tbl (.While c b) = resolveBlock tbl b)
    ∧ (∀ (tbl : List String) (b : Block) (tbl' : List String),
       resolveBlock tbl b = .ok tbl' → ∀ n, n ∈ blockLetNames b → n ∈ tbl') := by
  refine ⟨fun _ _ _ _ => rfl, fun _ _ _ _ => rfl, fun _ _ => rfl, fun _ _ _ => rfl, ?_⟩
  intro tbl b tbl' h n hn
  exact (resolveBlock_mem tbl b tbl' h n).mpr (Or.inr hn)

/-- C2 witness: instantiating the registration part on the one-statement
program `let y = 1;` puts "y" in the resulting table. -/
theorem spec_C2_witness :
    "y" ∈ (["y"] : List String) :=
  spec_C2.2.2.2.2 [] (.cons (.Let "y" (.Literal (.Number "1"))) .nil) ["y"] rfl "y"
    (by simp [blockLetNames, stmtLetNames])

/-- C9, counterexample to the claim as stated: the program
`if 1 == 1 then print 1; else y = 2; end` contains the assignment `y = 2;`
and no `let y` anywhere, yet resolution succeeds (the resolver never visits
the else clause) and the program runs, printing "1". -/
theorem spec_C9_cex :
    resolveSource "if 1 == 1 then print 1; else y = 2; end" 100 = .ok []
    ∧ run "if 1 == 1 then print 1; else y = 2; end" 100 = .ok ["1"] :=
  ⟨rfl, rfl⟩

/-- C9 (amended): resolution succeeds for `let x = 1; x = 2;`; and when the
resolver reaches an assignment at a position it visits (elseif/else tail
bodies are never visited) whose target is not in the table accumulated so
far, it fails fatally with the declared-before-assignment fault; on success
the table holds exactly the initial names plus the `let`-declared names at
visited positions. -/
theorem spec_C9 :
    (run "let x = 1; x = 2;" 100 = .ok []
     ∧ resolveSource "let x = 1; x = 2;" 100 = .ok ["x"])
    ∧ (∀ (tbl : List String) (y : String) (e : Expression) (rest : Block),
        tbl.contains y = false →
        resolveBlock tbl (.cons (.Assignment y e) rest)
          = .error ("Referenced symbol " ++ y ++ " before assignment"))
    ∧ (∀ (tbl : List String) (b : Block) (tbl' : List String),
        resolveBlock tbl b = .ok tbl' →
        ∀ n, n ∈ tbl' ↔ (n ∈ tbl ∨ n ∈ blockLetNames b)) := by
  refine ⟨⟨rfl, rfl⟩, ?_, resolveBlock_mem⟩
  intro tbl y e rest h
  have hm : y ∉ tbl := fun hmem => by
    have ht : tbl.contains y = true := List.elem_iff.mpr hmem
    rw [h] at ht
    exact Bool.false_ne_true ht
  unfold resolveBlock resolveStatement
  simp [hm]

/-- C9 witness: an assignment to "y" with an empty table fails immediately
with the declared-before-assignment fault. -/
theorem spec_C9_witness :
    resolveBlock [] (.cons (.Assignment "y" (.Literal (.Number "2"))) .nil)
      = .error "Referenced symbol y before assignment" :=
  spec_C9.2.1 [] "y" (.Literal (.Number "2")) .nil rfl

/-! ## Lexeme accounting for the tokenizer -/

theorem stringDataMk (l : List Char) : (String.mk l).data = l := rfl

theorem processNumber_consumed (c : Char) (cs : List Char) (tok : Token) (rest : List Char)
    (h : processNumber c cs = .ok (tok, rest)) :
    tok.tokenType = .NUMBER ∧ c :: cs = tok.tokenText.data ++ rest := by
  simp only [processNumber] at h
  split at h
  · rename_i rest2 heq
    split at h
    · exact absurd h (by simp)
    · rw [Except.ok.injEq, Prod.mk.injEq] at h
      obtain ⟨htok, hrest⟩ := h
      subst htok
      subst hrest
      refine ⟨rfl, ?_⟩
      have hcs2 : cs = cs.takeWhile Char.isDigit ++ '.' :: rest2 := by
        rw [← heq]
        exact (List.takeWhile_append_dropWhile Char.isDigit cs).symm
      rw [stringDataMk]
      conv_lhs => rw [hcs2]
      conv_lhs => rw [← List.takeWhile_append_dropWhile Char.isDigit rest2]
      simp
  · rw [Except.ok.injEq, Prod.mk.injEq] at h
    obtain ⟨htok, hrest⟩ := h
    subst htok
    subst hrest
    refine ⟨rfl, ?_⟩
    rw [stringDataMk]
    conv_lhs => rw [← List.takeWhile_append_dropWhile Char.isDigit cs]
    simp

theorem getKeywordToken_kind (s : String) (t : TokenType) (h : getKeywordToken s = some t) :
    t ≠ .LTEQ ∧ t ≠ .STRING := by
  simp only [getKeywordToken] at h
  split_ifs at h
  all_goals
    first
    | exact Option.noConfusion h
    | (injection h with h'; subst h'; exact ⟨by decide, by decide⟩)

theorem processAlpha_consumed (c : Char) (cs : List Char) (tok : Token) (rest : List Char)
    (h : processAlpha c cs = (tok, rest)) :
    c :: cs = tok.tokenText.data ++ rest ∧ tok.tokenType ≠ .LTEQ ∧ tok.tokenType ≠ .STRING := by
  simp only [processAlpha] at h
  split at h
  · rename_i t heq
    rw [Prod.mk.injEq] at h
    obtain ⟨htok, hrest⟩ := h
    subst htok
    subst hrest
    refine ⟨?_, getKeywordToken_kind _ t heq⟩
    rw [stringDataMk]
    conv_lhs => rw [← List.takeWhile_append_dropWhile Char.isAlphanum cs]
    simp
  · rw [Prod.mk.injEq] at h
    obtain ⟨htok, hrest⟩ := h
    subst htok
    subst hrest
    refine ⟨?_, by simp, by simp⟩
    rw [stringDataMk]
    conv_lhs => rw [← List.takeWhile_append_dropWhile Char.isAlphanum cs]
    simp

theorem processString_consumed (cs : List Char) (tok : Token) (rest : List Char)
    (h : processString cs = .ok (tok, rest)) :
    tok.tokenType = .STRING ∧
      (cs = tok.tokenText.data ++ '"' :: rest ∨ (rest = [] ∧ cs = tok.tokenText.data)) := by
  simp only [processString] at h
  split at h
  · rename_i rest0 heq
    rw [Except.ok.injEq, Prod.mk.injEq] at h
    obtain ⟨htok, hrest⟩ := h
    subst htok
    subst hrest
    refine ⟨rfl, Or.inl ?_⟩
    rw [stringDataMk]
    conv_lhs => rw [← List.takeWhile_append_dropWhile (fun c => c ≠ '"') cs]
    rw [heq]
  · split at h
    · rename_i he
      rw [Except.ok.injEq, Prod.mk.injEq] at h
      obtain ⟨htok, hrest⟩ := h
      subst htok
      subst hrest
      have hnil : cs = [] := List.isEmpty_iff.mp he
      exact ⟨rfl, Or.inr ⟨rfl, by simp [hnil]⟩⟩
    · exact absurd h (by simp)

theorem getTokenCore_lexeme (pre : List Char) (tok : Token) (rest : List Char)
    (h : getTokenCore pre = .ok (tok, rest)) :
    (tok.tokenType ∈ ([.NUMBER, .IDENT, .PLUS, .MINUS, .ASTERISK, .SLASH, .SEMICOLON,
        .EQ, .EQEQ, .NOTEQ, .LT, .GT, .GTEQ] : List TokenType) →
      pre = tok.tokenText.data ++ rest)
    ∧ (tok.tokenType = .LTEQ → pre = '<' :: '<' :: rest ∧ tok.tokenText = "<=")
    ∧ (tok.tokenType = .STRING →
        pre = '"' :: tok.tokenText.data ++ '"' :: rest
        ∨ (rest = [] ∧ pre = '"' :: tok.tokenText.data)) := by
  cases pre with
  | nil =>
    simp only [getTokenCore] at h
    rw [Except.ok.injEq, Prod.mk.injEq] at h
    obtain ⟨htok, hrest⟩ := h
    subst htok
    subst hrest
    exact ⟨fun hmem => absurd hmem (by decide), (by intro hk; simp at hk), (by intro hk; simp at hk)⟩
  | cons c cs' =>
    simp only [getTokenCore] at h
    by_cases h1 : c = '+'
    · rw [if_pos h1] at h
      rw [Except.ok.injEq, Prod.mk.injEq] at h
      obtain ⟨htok, hrest⟩ := h
      subst htok
      subst hrest
      subst h1
      exact ⟨fun _ => rfl, (by intro hk; simp at hk), (by intro hk; simp at hk)⟩
    rw [if_neg h1] at h
    by_cases h2 : c = '-'
    · rw [if_pos h2] at h
      rw [Except.ok.injEq, Prod.mk.injEq] at h
      obtain ⟨htok, hrest⟩ := h
      subst htok
      subst hrest
      subst h2
      exact ⟨fun _ => rfl, (by intro hk; simp at hk), (by intro hk; simp at hk)⟩
    rw [if_neg h2] at h
    by_cases h3 : c = '*'
    · rw [if_pos h3] at h
      rw [Except.ok.injEq, Prod.mk.injEq] at h
      obtain ⟨htok, hrest⟩ := h
      subst htok
      subst hrest
      subst h3
      exact ⟨fun _ => rfl, (by intro hk; simp at hk), (by intro hk; simp at hk)⟩
    rw [if_neg h3] at h
    by_cases h4 : c = '/'
    · rw [if_pos h4] at h
      rw [Except.ok.injEq, Prod.mk.injEq] at h
      obtain ⟨htok, hrest⟩ := h
      subst htok
      subst hrest
      subst h4
      exact ⟨fun _ => rfl, (by intro hk; simp at hk), (by intro hk; simp at hk)⟩
    rw [if_neg h4] at h
    by_cases h5 : c = '='
    · rw [if_pos h5] at h
      by_cases hh : cs'.head? = some '='
      · rw [if_pos hh] at h
        rw [Except.ok.injEq, Prod.mk.injEq] at h
        obtain ⟨htok, hrest⟩ := h
        subst htok
        subst hrest
        subst h5
        cases cs' with
        | nil => exact absurd hh (by simp)
        | cons c0 t =>
          have hc0 : c0 = '=' := by simpa using hh
          subst hc0
          exact ⟨fun _ => rfl, (by intro hk; simp at hk), (by intro hk; simp at hk)⟩
      · rw [if_neg hh] at h
        rw [Except.ok.injEq, Prod.mk.injEq] at h
        obtain ⟨htok, hrest⟩ := h
        subst htok
        subst hrest
        subst h5
        exact ⟨fun _ => rfl, (by intro hk; simp at hk), (by intro hk; simp at hk)⟩
    rw [if_neg h5] at h
    by_cases h6 : c = '>'
    · rw [if_pos h6] at h
      by_cases hh : cs'.head? = some '='
      · rw [if_pos hh] at h
        rw [Except.ok.injEq, Prod.mk.injEq] at h
        obtain ⟨htok, hrest⟩ := h
        subst htok
        subst hrest
        subst h6
        cases cs' with
        | nil => exact absurd hh (by simp)
        | cons c0 t =>
          have hc0 : c0 = '=' := by simpa using hh
          subst hc0
          exact ⟨fun _ => rfl, (by intro hk; simp at hk), (by intro hk; simp at hk)⟩
      · rw [if_neg hh] at h
        rw [Except.ok.injEq, Prod.mk.injEq] at h
        obtain ⟨htok, hrest⟩ := h
        subst htok
        subst hrest
        subst h6
        exact ⟨fun _ => rfl, (by intro hk; simp at hk), (by intro hk; simp at hk)⟩
    rw [if_neg h6] at h
    by_cases h7 : c = '<'
    · rw [if_pos h7] at h
      by_cases hh : cs'.head? = some '<'
      · rw [if_pos hh] at h
        rw [Except.ok.injEq, Prod.mk.injEq] at h
        obtain ⟨htok, hrest⟩ := h
        subst htok
        subst hrest
        subst h7
        cases cs' with
        | nil => exact absurd hh (by simp)
        | cons c0 t =>
          have hc0 : c0 = '<' := by simpa using hh
          subst hc0
          refine ⟨fun hmem => absurd hmem (by decide), fun _ => ⟨rfl, rfl⟩, (by intro hk; simp at hk)⟩
      · rw [if_neg hh] at h
        rw [Except.ok.injEq, Prod.mk.injEq] at h
        obtain ⟨htok, hrest⟩ := h
        subst htok
        subst hrest
        subst h7
        exact ⟨fun _ => rfl, (by intro hk; simp at hk), (by intro hk; simp at hk)⟩
    rw [if_neg h7] at h
    by_cases h8 : c = '!'
    · rw [if_pos h8] at h
      by_cases hh : cs'.head? = some '='
      · rw [if_pos hh] at h
        rw [Except.ok.injEq, Prod.mk.injEq] at h
        obtain ⟨htok, hrest⟩ := h
        subst htok
        subst hrest
        subst h8
        cases cs' with
        | nil => exact absurd hh (by simp)
        | cons c0 t =>
          have hc0 : c0 = '=' := by simpa using hh
          subst hc0
          exact ⟨fun _ => rfl, (by intro hk; simp at hk), (by intro hk; simp at hk)⟩
      · rw [if_neg hh] at h
        exact absurd h (by simp)
    rw [if_neg h8] at h
    by_cases h9 : c = '"'
    · rw [if_pos h9] at h
      obtain ⟨hstr, hcons⟩ := processString_consumed cs' tok rest h
      subst h9
      refine ⟨fun hmem => absurd hmem (by rw [hstr]; decide),
        fun hk => absurd (hstr.symm.trans hk) (by decide), fun _ => ?_⟩
      rcases hcons with h' | ⟨hr, h'⟩
      · exact Or.inl (by rw [h']; simp)
      · exact Or.inr ⟨hr, by rw [h']⟩
    rw [if_neg h9] at h
    by_cases h10 : c.isDigit
    · rw [if_pos h10] at h
      obtain ⟨hnum, hcons⟩ := processNumber_consumed c cs' tok rest h
      exact ⟨fun _ => hcons, fun hk => absurd (hnum.symm.trans hk) (by decide),
        fun hk => absurd (hnum.symm.trans hk) (by decide)⟩
    rw [if_neg h10] at h
    by_cases h11 : c.isAlpha
    · rw [if_pos h11] at h
      rw [Except.ok.injEq] at h
      obtain ⟨hcons, hlt, hstr⟩ := processAlpha_consumed c cs' tok rest h
      exact ⟨fun _ => hcons, fun hk => absurd hk hlt, fun hk => absurd hk hstr⟩
    rw [if_neg h11] at h
    by_cases h12 : c = ';'
    · rw [if_pos h12] at h
      rw [Except.ok.injEq, Prod.mk.injEq] at h
      obtain ⟨htok, hrest⟩ := h
      subst htok
      subst hrest
      subst h12
      exact ⟨fun _ => rfl, (by intro hk; simp at hk), (by intro hk; simp at hk)⟩
    rw [if_neg h12] at h
    rw [Except.ok.injEq, Prod.mk.injEq] at h
    obtain ⟨htok, hrest⟩ := h
    subst htok
    subst hrest
    exact ⟨fun hmem => absurd hmem (by decide), (by intro hk; simp at hk), (by intro hk; simp at hk)⟩

/-- C5 (amended): for every token the tokenizer produces, if its kind is
number, identifier, or an operator/punctuation kind other than the
less-than-or-equal token, the stored text is exactly the lexeme consumed
after whitespace skipping; a string token stores the consumed lexeme minus
the surrounding quotes (minus only the opening quote when input ends at the
opening quote); and the `<=` token stores "<=" while the consumed lexeme is
`<<`. -/
theorem spec_C5 (cs : List Char) (tok : Token) (rest : List Char)
    (h : getToken cs = .ok (tok, rest)) :
    (tok.tokenType ∈ ([.NUMBER, .IDENT, .PLUS, .MINUS, .ASTERISK, .SLASH, .SEMICOLON,
        .EQ, .EQEQ, .NOTEQ, .LT, .GT, .GTEQ] : List TokenType) →
      cs.dropWhile Char.isWhitespace = tok.tokenText.data ++ rest)
    ∧ (tok.tokenType = .LTEQ →
        cs.dropWhile Char.isWhitespace = '<' :: '<' :: rest ∧ tok.tokenText = "<=")
    ∧ (tok.tokenType = .STRING →
        cs.dropWhile Char.isWhitespace = '"' :: tok.tokenText.data ++ '"' :: rest
        ∨ (rest = [] ∧ cs.dropWhile Char.isWhitespace = '"' :: tok.tokenText.data)) :=
  getTokenCore_lexeme (cs.dropWhile Char.isWhitespace) tok rest h

/-- C5 witness: tokenizing "12;" produces the number token "12", whose
stored text is the consumed lexeme. -/
theorem spec_C5_witness :
    ("12;").data.dropWhile Char.isWhitespace = ("12").data ++ [';'] :=
  (spec_C5 ("12;").data ⟨.NUMBER, "12"⟩ [';'] rfl).1 (by decide)

/-! ## The declaredness predicate versus the resolver and the evaluator -/

mutual

theorem declCheckStmt_mono :
    ∀ (env : List String) (s : Statement) (env' : List String),
      declCheckStmt env s = some env' → ∀ n, n ∈ env → n ∈ env'
  | env, .Print e, env', h => by
    simp only [declCheckStmt] at h
    split at h
    · rw [Option.some.injEq] at h
      subst h
      exact fun n hn => hn
    · exact Option.noConfusion h
  | env, .Let ident e, env', h => by
    simp only [declCheckStmt] at h
    split at h
    · rw [Option.some.injEq] at h
      subst h
      exact fun n hn => (defineSymbol_mem env ident n).mpr (Or.inl hn)
    · exact Option.noConfusion h
  | env, .Assignment ident e, env', h => by
    simp only [declCheckStmt] at h
    split at h
    · rw [Option.some.injEq] at h
      subst h
      exact fun n hn => hn
    · exact Option.noConfusion h
  | env, .If (.If c block other), env', h => by
    simp only [declCheckStmt, declCheckChain] at h
    split at h
    · split at h
      · exact Option.noConfusion h
      · rename_i envB hb
        split at h
        · rw [Option.some.injEq] at h
          subst h
          exact declCheckBlock_mono env block _ hb
        · exact Option.noConfusion h
    · exact Option.noConfusion h
  | env, .If (.ElseIf c block other), env', h => by
    simp only [declCheckStmt, declCheckChain] at h
    split at h
    · split at h
      · exact Option.noConfusion h
      · rename_i envB hb
        split at h
        · rw [Option.some.injEq] at h
          subst h
          exact declCheckBlock_mono env block _ hb
        · exact Option.noConfusion h
    · exact Option.noConfusion h
  | env, .If (.Else block), env', h => by
    simp only [declCheckStmt, declCheckChain] at h
    exact declCheckBlock_mono env block env' h
  | env, .While c block, env', h => by
    simp only [declCheckStmt] at h
    split at h
    · exact declCheckBlock_mono env block env' h
    · exact Option.noConfusion h

theorem declCheckBlock_mono :
    ∀ (env : List String) (b : Block) (env' : List String),
      declCheckBlock env b = some env' → ∀ n, n ∈ env → n ∈ env'
  | env, .nil, env', h => by
    simp only [declCheckBlock, Option.some.injEq] at h
    subst h
    exact fun n hn => hn
  | env, .cons s rest, env', h => by
    simp only [declCheckBlock] at h
    rcases h1 : declCheckStmt env s with _ | env1
    · rw [h1] at h
      exact Option.noConfusion h
    · rw [h1] at h
      exact fun n hn =>
        declCheckBlock_mono env1 rest env' h n (declCheckStmt_mono env s env1 h1 n hn)

end

mutual

theorem declCheck_resolveStatement :
    ∀ (env : List String) (s : Statement) (env' tbl : List String),
      declCheckStmt env s = some env' →
      (∀ n, n ∈ env → n ∈ tbl) →
      ∃ tbl', resolveStatement tbl s = .ok tbl'
        ∧ (∀ n, n ∈ env' → n ∈ tbl') ∧ (∀ n, n ∈ tbl → n ∈ tbl')
  | env, .Print e, env', tbl, h, hsub => by
    simp only [declCheckStmt] at h
    split at h
    · rw [Option.some.injEq] at h
      subst h
      exact ⟨tbl, rfl, hsub, fun n hn => hn⟩
    · exact Option.noConfusion h
  | env, .Let ident e, env', tbl, h, hsub => by
    simp only [declCheckStmt] at h
    split at h
    · rw [Option.some.injEq] at h
      subst h
      refine ⟨defineSymbol tbl ident, rfl, ?_, ?_⟩
      · intro n hn
        rcases (defineSymbol_mem env ident n).mp hn with h' | h'
        · exact (defineSymbol_mem tbl ident n).mpr (Or.inl (hsub n h'))
        · exact (defineSymbol_mem tbl ident n).mpr (Or.inr h')
      · intro n hn
        exact (defineSymbol_mem tbl ident n).mpr (Or.inl hn)
    · exact Option.noConfusion h
  | env, .Assignment ident e, env', tbl, h, hsub => by
    simp only [declCheckStmt] at h
    split at h
    · rename_i hcond
      rw [Option.some.injEq] at h
      subst h
      rw [Bool.and_eq_true] at hcond
      have hid : ident ∈ env := List.elem_iff.mp hcond.1
      have hct : tbl.contains ident = true := List.elem_iff.mpr (hsub ident hid)
      refine ⟨tbl, ?_, hsub, fun n hn => hn⟩
      simp only [resolveStatement, hct, if_true]
    · exact Option.noConfusion h
  | env, .If (.If c block other), env', tbl, h, hsub => by
    simp only [declCheckStmt, declCheckChain] at h
    split at h
    · split at h
      · exact Option.noConfusion h
      · rename_i envB hb
        split at h
        · rw [Option.some.injEq] at h
          subst h
          obtain ⟨tbl', hres, hsub', hmono⟩ :=
            declCheck_resolveBlock env block _ tbl hb hsub
          exact ⟨tbl', hres, hsub', hmono⟩
        · exact Option.noConfusion h
    · exact Option.noConfusion h
  | env, .If (.ElseIf c block other), env', tbl, h, hsub => by
    simp only [declCheckStmt, declCheckChain] at h
    split at h
    · split at h
      · exact Option.noConfusion h
      · rename_i envB hb
        split at h
        · rw [Option.some.injEq] at h
          subst h
          obtain ⟨tbl', hres, hsub', hmono⟩ :=
            declCheck_resolveBlock env block _ tbl hb hsub
          exact ⟨tbl', hres, hsub', hmono⟩
        · exact Option.noConfusion h
    · exact Option.noConfusion h
  | env, .If (.Else block), env', tbl, h, hsub => by
    simp only [declCheckStmt, declCheckChain] at h
    obtain ⟨tbl', hres, hsub', hmono⟩ := declCheck_resolveBlock env block env' tbl h hsub
    exact ⟨tbl', hres, hsub', hmono⟩
  | env, .While c block, env', tbl, h, hsub => by
    simp only [declCheckStmt] at h
    split at h
    · obtain ⟨tbl', hres, hsub', hmono⟩ := declCheck_resolveBlock env block env' tbl h hsub
      exact ⟨tbl', hres, hsub', hmono⟩
    · exact Option.noConfusion h

theorem declCheck_resolveBlock :
    ∀ (env : List String) (b : Block) (env' tbl : List String),
      declCheckBlock env b = some env' →
      (∀ n, n ∈ env → n ∈ tbl) →
      ∃ tbl', resolveBlock tbl b = .ok tbl'
        ∧ (∀ n, n ∈ env' → n ∈ tbl') ∧ (∀ n, n ∈ tbl → n ∈ tbl')
  | env, .nil, env', tbl, h, hsub => by
    simp only [declCheckBlock, Option.some.injEq] at h
    subst h
    exact ⟨tbl, rfl, hsub, fun n hn => hn⟩
  | env, .cons s rest, env', tbl, h, hsub => by
    simp only [declCheckBlock] at h
    rcases h1 : declCheckStmt env s with _ | env1
    · rw [h1] at h
      exact Option.noConfusion h
    · rw [h1] at h
      obtain ⟨tbl1, hres1, hsub1, hmono1⟩ :=
        declCheck_resolveStatement env s env1 tbl h1 hsub
      obtain ⟨tbl', hres2, hsub2, hmono2⟩ :=
        declCheck_resolveBlock env1 rest env' tbl1 h hsub1
      refine ⟨tbl', ?_, hsub2, fun n hn => hmono2 n (hmono1 n hn)⟩
      simp only [resolveBlock, hres1]
      exact hres2

end

mutual

theorem tailBlockOK_targets :
    ∀ (env : List String) (b : Block) (T : List String),
      tailBlockOK env b = true → (∀ n, n ∈ env → n ∈ T) → blockTargetsIn T b = true
  | _, .nil, _, _, _ => rfl
  | env, .cons s rest, T, h, hsub => by
    simp only [tailBlockOK, Bool.and_eq_true] at h
    simp only [blockTargetsIn, Bool.and_eq_true]
    exact ⟨tailStmtOK_targets env s T h.1 hsub, tailBlockOK_targets env rest T h.2 hsub⟩

theorem tailStmtOK_targets :
    ∀ (env : List String) (s : Statement) (T : List String),
      tailStmtOK env s = true → (∀ n, n ∈ env → n ∈ T) → stmtTargetsIn T s = true
  | _, .Print _, _, _, _ => rfl
  | _, .Let _ _, _, h, _ => by simp [tailStmtOK] at h
  | env, .Assignment ident e, T, h, hsub => by
    simp only [tailStmtOK, Bool.and_eq_true] at h
    simp only [stmtTargetsIn]
    exact List.elem_iff.mpr (hsub ident (List.elem_iff.mp h.1))
  | env, .If ifs, T, h, hsub => tailChainOK_targets env ifs T h hsub
  | env, .While c block, T, h, hsub => by
    simp only [tailStmtOK, Bool.and_eq_true] at h
    exact tailBlockOK_targets env block T h.2 hsub

theorem tailChainOK_targets :
    ∀ (env : List String) (ifs : IfStatement) (T : List String),
      tailChainOK env ifs = true → (∀ n, n ∈ env → n ∈ T) → chainTargetsIn T ifs = true
  | env, .If c block other, T, h, hsub => by
    simp only [tailChainOK, Bool.and_eq_true] at h
    simp only [chainTargetsIn, Bool.and_eq_true]
    exact ⟨tailBlockOK_targets env block T h.1.2 hsub, tailOptOK_targets env other T h.2 hsub⟩
  | env, .ElseIf c block other, T, h, hsub => by
    simp only [tailChainOK, Bool.and_eq_true] at h
    simp only [chainTargetsIn, Bool.and_eq_true]
    exact ⟨tailBlockOK_targets env block T h.1.2 hsub, tailOptOK_targets env other T h.2 hsub⟩
  | env, .Else block, T, h, hsub => tailBlockOK_targets env block T h hsub

theorem tailOptOK_targets :
    ∀ (env : List String) (o : OptIf) (T : List String),
      tailOptOK env o = true → (∀ n, n ∈ env → n ∈ T) → optTargetsIn T o = true
  | _, .none, _, _, _ => rfl
  | env, .some s, T, h, hsub => tailChainOK_targets env s T h hsub

end

mutual

theorem declCheckStmt_targets :
    ∀ (env : List String) (s : Statement) (env' T : List String),
      declCheckStmt env s = some env' →
      (∀ n, n ∈ env' → n ∈ T) →
      (∀ n, n ∈ stmtLetNames s → n ∈ T) →
      stmtTargetsIn T s = true
  | _, .Print _, _, _, _, _, _ => rfl
  | env, .Let ident e, env', T, h, hEnv, hLets => by
    simp only [stmtTargetsIn]
    exact List.elem_iff.mpr (hLets ident (by simp [stmtLetNames]))
  | env, .Assignment ident e, env', T, h, hEnv, hLets => by
    simp only [declCheckStmt] at h
    split at h
    · rename_i hcond
      rw [Option.some.injEq] at h
      subst h
      rw [Bool.and_eq_true] at hcond
      simp only [stmtTargetsIn]
      exact List.elem_iff.mpr (hEnv ident (List.elem_iff.mp hcond.1))
    · exact Option.noConfusion h
  | env, .If (.If c block other), env', T, h, hEnv, hLets => by
    simp only [declCheckStmt, declCheckChain] at h
    split at h
    · split at h
      · exact Option.noConfusion h
      · rename_i envB hb
        split at h
        · rename_i htail
          rw [Option.some.injEq] at h
          subst h
          simp only [stmtTargetsIn, chainTargetsIn, Bool.and_eq_true]
          refine ⟨declCheckBlock_targets env block _ T hb hEnv ?_,
            tailOptOK_targets _ other T htail hEnv⟩
          intro n hn
          exact hLets n (by simpa [stmtLetNames, chainFirstLetNames] using hn)
        · exact Option.noConfusion h
    · exact Option.noConfusion h
  | env, .If (.ElseIf c block other), env', T, h, hEnv, hLets => by
    simp only [declCheckStmt, declCheckChain] at h
    split at h
    · split at h
      · exact Option.noConfusion h
      · rename_i envB hb
        split at h
        · rename_i htail
          rw [Option.some.injEq] at h
          subst h
          simp only [stmtTargetsIn, chainTargetsIn, Bool.and_eq_true]
          refine ⟨declCheckBlock_targets env block _ T hb hEnv ?_,
            tailOptOK_targets _ other T htail hEnv⟩
          intro n hn
          exact hLets n (by simpa [stmtLetNames, chainFirstLetNames] using hn)
        · exact Option.noConfusion h
    · exact Option.noConfusion h
  | env, .If (.Else block), env', T, h, hEnv, hLets => by
    simp only [declCheckStmt, declCheckChain] at h
    simp only [stmtTargetsIn, chainTargetsIn]
    exact declCheckBlock_targets env block env' T h hEnv
      (fun n hn => hLets n (by simpa [stmtLetNames, chainFirstLetNames] using hn))
  | env, .While c block, env', T, h, hEnv, hLets => by
    simp only [declCheckStmt] at h
    split at h
    · simp only [stmtTargetsIn]
      exact declCheckBlock_targets env block env' T h hEnv
        (fun n hn => hLets n (by simpa [stmtLetNames] using hn))
    · exact Option.noConfusion h

theorem declCheckBlock_targets :
    ∀ (env : List String) (b : Block) (env' T : List String),
      declCheckBlock env b = some env' →
      (∀ n, n ∈ env' → n ∈ T) →
      (∀ n, n ∈ blockLetNames b → n ∈ T) →
      blockTargetsIn T b = true
  | _, .nil, _, _, _, _, _ => rfl
  | env, .cons s rest, env', T, h, hEnv, hLets => by
    simp only [declCheckBlock] at h
    rcases h1 : declCheckStmt env s with _ | env1
    · rw [h1] at h
      exact Option.noConfusion h
    · rw [h1] at h
      have henv1 : ∀ n, n ∈ env1 → n ∈ env' := declCheckBlock_mono env1 rest env' h
      simp only [blockTargetsIn, Bool.and_eq_true]
      refine ⟨declCheckStmt_targets env s env1 T h1 (fun n hn => hEnv n (henv1 n hn))
          (fun n hn => hLets n ?_),
        declCheckBlock_targets env1 rest env' T h hEnv (fun n hn => hLets n ?_)⟩
      · simp only [blockLetNames, List.mem_append]
        exact Or.inl hn
      · simp only [blockLetNames, List.mem_append]
        exact Or.inr hn

end

/-! ## Evaluator fault classification -/

theorem benign_fuelOut : BenignFault .fuelOut :=
  Or.inr (Or.inr rfl)

theorem processExpression_err (sc : Scope) :
    ∀ (e : Expression) (r : RtErr), processExpression sc e = .error r →
      (∃ m, r = .invalidNumber m) ∨ (∃ n, r = .useBeforeAssignment n)
  | .Literal l, r, h => by
    simp only [processExpression] at h
    exact Except.noConfusion h
  | .Ident symbol, r, h => by
    simp only [processExpression] at h
    split at h
    · exact Except.noConfusion h
    · rw [Except.error.injEq] at h
      exact Or.inr ⟨symbol, h.symm⟩
  | .UnaryOp op t, r, h => processExpression_err sc t r h
  | .BinaryOp l op rr, r, h => by
    simp only [processExpression] at h
    split at h
    · rename_i e' h1
      rw [Except.error.injEq] at h
      subst h
      exact processExpression_err sc l e' h1
    · split at h
      · rename_i m h2
        rw [Except.error.injEq] at h
        exact Or.inl ⟨m, h.symm⟩
      · split at h
        · rename_i e' h3
          rw [Except.error.injEq] at h
          subst h
          exact processExpression_err sc rr e' h3
        · split at h
          · rename_i m h4
            rw [Except.error.injEq] at h
            exact Or.inl ⟨m, h.symm⟩
          · exact Except.noConfusion h

theorem processCondition_err (sc : Scope) (c : Condition) (r : RtErr)
    (h : processCondition sc c = .error r) :
    (∃ m, r = .invalidNumber m) ∨ (∃ n, r = .useBeforeAssignment n) := by
  simp only [processCondition] at h
  split at h
  · rename_i e' h1
    rw [Except.error.injEq] at h
    subst h
    exact processExpression_err sc c.leftExpression e' h1
  · split at h
    · rename_i m h2
      rw [Except.error.injEq] at h
      exact Or.inl ⟨m, h.symm⟩
    · split at h
      · rename_i e' h3
        rw [Except.error.injEq] at h
        subst h
        exact processExpression_err sc c.rightExpression e' h3
      · split at h
        · rename_i m h4
          rw [Except.error.injEq] at h
          exact Or.inl ⟨m, h.symm⟩
        · exact Except.noConfusion h

theorem processAssignment_cls (st : EvalSt) (ident : String) (e : Expression)
    (hc : st.symbols.contains ident = true) :
    (∀ st', processAssignment st ident e = .ok st' → st'.symbols = st.symbols)
    ∧ (∀ r, processAssignment st ident e = .error r → BenignFault r) := by
  constructor
  · intro st' h
    simp only [processAssignment] at h
    split at h
    · exact Except.noConfusion h
    · rw [hc] at h
      simp only [if_true] at h
      rw [Except.ok.injEq] at h
      subst h
      rfl
  · intro r h
    simp only [processAssignment] at h
    split at h
    · rename_i e' h1
      rw [Except.error.injEq] at h
      subst h
      rcases processExpression_err st.scope e e' h1 with ⟨m, hm⟩ | ⟨n, hn⟩
      · exact Or.inl ⟨m, hm⟩
      · exact Or.inr (Or.inl ⟨n, hn⟩)
    · rw [hc] at h
      simp only [if_true] at h
      exact Except.noConfusion h

theorem evalClasses : ∀ fuel : Nat,
    (∀ (st : EvalSt) (b : Block), blockTargetsIn st.symbols b = true →
      (∀ st', processBlock fuel st b = .ok st' → st'.symbols = st.symbols)
      ∧ (∀ r, processBlock fuel st b = .error r → BenignFault r))
    ∧ (∀ (st : EvalSt) (s : Statement), stmtTargetsIn st.symbols s = true →
      (∀ st', processStatement fuel st s = .ok st' → st'.symbols = st.symbols)
      ∧ (∀ r, processStatement fuel st s = .error r → BenignFault r))
    ∧ (∀ (st : EvalSt) (c : Condition) (bl : Block), blockTargetsIn st.symbols bl = true →
      (∀ st', processWhile fuel st c bl = .ok st' → st'.symbols = st.symbols)
      ∧ (∀ r, processWhile fuel st c bl = .error r → BenignFault r))
    ∧ (∀ (st : EvalSt) (c : Condition) (bl : Block) (o : OptIf),
      blockTargetsIn st.symbols bl = true → optTargetsIn st.symbols o = true →
      (∀ st', processIf fuel st c bl o = .ok st' → st'.symbols = st.symbols)
      ∧ (∀ r, processIf fuel st c bl o = .error r → BenignFault r))
    ∧ (∀ (st : EvalSt) (ifs : IfStatement), chainTargetsIn st.symbols ifs = true →
      (∀ st', processElseIf fuel st ifs = .ok st' → st'.symbols = st.symbols)
      ∧ (∀ r, processElseIf fuel st ifs = .error r → BenignFault r)) := by
  intro fuel
  induction fuel with
  | zero =>
    refine ⟨fun st b _ => ⟨fun st' h => absurd h (by simp [processBlock]), fun r h => ?_⟩,
      fun st s _ => ⟨fun st' h => absurd h (by simp [processStatement]), fun r h => ?_⟩,
      fun st c bl _ => ⟨fun st' h => absurd h (by simp [processWhile]), fun r h => ?_⟩,
      fun st c bl o _ _ => ⟨fun st' h => absurd h (by simp [processIf]), fun r h => ?_⟩,
      fun st ifs _ => ⟨fun st' h => absurd h (by simp [processElseIf]), fun r h => ?_⟩⟩
    · have h' : RtErr.fuelOut = r := by simpa [processBlock] using h
      exact h' ▸ benign_fuelOut
    · have h' : RtErr.fuelOut = r := by simpa [processStatement] using h
      exact h' ▸ benign_fuelOut
    · have h' : RtErr.fuelOut = r := by simpa [processWhile] using h
      exact h' ▸ benign_fuelOut
    · have h' : RtErr.fuelOut = r := by simpa [processIf] using h
      exact h' ▸ benign_fuelOut
    · have h' : RtErr.fuelOut = r := by simpa [processElseIf] using h
      exact h' ▸ benign_fuelOut
  | succ fuel IH =>
    obtain ⟨IHblock, IHstmt, IHwhile, IHif, IHelse⟩ := IH
    have Hblock : ∀ (st : EvalSt) (b : Block), blockTargetsIn st.symbols b = true →
        (∀ st', processBlock (fuel + 1) st b = .ok st' → st'.symbols = st.symbols)
        ∧ (∀ r, processBlock (fuel + 1) st b = .error r → BenignFault r) := by
      intro st b htg
      cases b with
      | nil =>
        constructor
        · intro st' h
          simp only [processBlock] at h
          rw [Except.ok.injEq] at h
          subst h
          rfl
        · intro r h
          simp only [processBlock] at h
          exact Except.noConfusion h
      | cons s rest =>
        simp only [blockTargetsIn, Bool.and_eq_true] at htg
        constructor
        · intro st' h
          simp only [processBlock] at h
          split at h
          · exact Except.noConfusion h
          · rename_i st1 h1
            have hs1 : st1.symbols = st.symbols := (IHstmt st s htg.1).1 st1 h1
            have : blockTargetsIn st1.symbols rest = true := by rw [hs1]; exact htg.2
            have := (IHblock st1 rest this).1 st' h
            rw [this, hs1]
        · intro r h
          simp only [processBlock] at h
          split at h
          · rename_i e' h1
            rw [Except.error.injEq] at h
            subst h
            exact (IHstmt st s htg.1).2 e' h1
          · rename_i st1 h1
            have hs1 : st1.symbols = st.symbols := (IHstmt st s htg.1).1 st1 h1
            have htg1 : blockTargetsIn st1.symbols rest = true := by rw [hs1]; exact htg.2
            exact (IHblock st1 rest htg1).2 r h
    have Hstmt : ∀ (st : EvalSt) (s : Statement), stmtTargetsIn st.symbols s = true →
        (∀ st', processStatement (fuel + 1) st s = .ok st' → st'.symbols = st.symbols)
        ∧ (∀ r, processStatement (fuel + 1) st s = .error r → BenignFault r) := by
      intro st s htg
      cases s with
      | Print e =>
        constructor
        · intro st' h
          simp only [processStatement] at h
          split at h
          · exact Except.noConfusion h
          · rw [Except.ok.injEq] at h
            subst h
            rfl
        · intro r h
          simp only [processStatement] at h
          split at h
          · rename_i e' h1
            rw [Except.error.injEq] at h
            subst h
            rcases processExpression_err st.scope e e' h1 with ⟨m, hm⟩ | ⟨n, hn⟩
            · exact Or.inl ⟨m, hm⟩
            · exact Or.inr (Or.inl ⟨n, hn⟩)
          · exact Except.noConfusion h
      | Let ident e =>
        have hc : st.symbols.contains ident = true := htg
        have := processAssignment_cls st ident e hc
        exact ⟨fun st' h => this.1 st' (by simpa [processStatement] using h),
          fun r h => this.2 r (by simpa [processStatement] using h)⟩
      | Assignment ident e =>
        have hc : st.symbols.contains ident = true := htg
        have := processAssignment_cls st ident e hc
        exact ⟨fun st' h => this.1 st' (by simpa [processStatement] using h),
          fun r h => this.2 r (by simpa [processStatement] using h)⟩
      | If ifs =>
        cases ifs with
        | If c bl o =>
          simp only [stmtTargetsIn, chainTargetsIn, Bool.and_eq_true] at htg
          have := IHif st c bl o htg.1 htg.2
          exact ⟨fun st' h => this.1 st' (by simpa [processStatement] using h),
            fun r h => this.2 r (by simpa [processStatement] using h)⟩
        | ElseIf c bl o =>
          simp only [stmtTargetsIn, chainTargetsIn, Bool.and_eq_true] at htg
          have := IHif st c bl o htg.1 htg.2
          exact ⟨fun st' h => this.1 st' (by simpa [processStatement] using h),
            fun r h => this.2 r (by simpa [processStatement] using h)⟩
        | Else bl =>
          have htg' : blockTargetsIn st.symbols bl = true := htg
          have := IHblock st bl htg'
          exact ⟨fun st' h => this.1 st' (by simpa [processStatement] using h),
            fun r h => this.2 r (by simpa [processStatement] using h)⟩
      | While c bl =>
        have htg' : blockTargetsIn st.symbols bl = true := htg
        have := IHwhile st c bl htg'
        exact ⟨fun st' h => this.1 st' (by simpa [processStatement] using h),
          fun r h => this.2 r (by simpa [processStatement] using h)⟩
    have Hwhile : ∀ (st : EvalSt) (c : Condition) (bl : Block),
        blockTargetsIn st.symbols bl = true →
        (∀ st', processWhile (fuel + 1) st c bl = .ok st' → st'.symbols = st.symbols)
        ∧ (∀ r, processWhile (fuel + 1) st c bl = .error r → BenignFault r) := by
      intro st c bl htg
      constructor
      · intro st' h
        simp only [processWhile] at h
        split at h
        · exact Except.noConfusion h
        · rename_i cv hcv
          split at h
          · split at h
            · exact Except.noConfusion h
            · rename_i st1 h1
              have hs1 : st1.symbols = st.symbols := (IHblock st bl htg).1 st1 h1
              have htg1 : blockTargetsIn st1.symbols bl = true := by rw [hs1]; exact htg
              have := (IHwhile st1 c bl htg1).1 st' h
              rw [this, hs1]
          · rw [Except.ok.injEq] at h
            subst h
            rfl
      · intro r h
        simp only [processWhile] at h
        split at h
        · rename_i e' h1
          rw [Except.error.injEq] at h
          subst h
          rcases processCondition_err st.scope c e' h1 with ⟨m, hm⟩ | ⟨n, hn⟩
          · exact Or.inl ⟨m, hm⟩
          · exact Or.inr (Or.inl ⟨n, hn⟩)
        · split at h
          · split at h
            · rename_i e' h1
              rw [Except.error.injEq] at h
              subst h
              exact (IHblock st bl htg).2 e' h1
            · rename_i st1 h1
              have hs1 : st1.symbols = st.symbols := (IHblock st bl htg).1 st1 h1
              have htg1 : blockTargetsIn st1.symbols bl = true := by rw [hs1]; exact htg
              exact (IHwhile st1 c bl htg1).2 r h
          · exact Except.noConfusion h
    have Hif : ∀ (st : EvalSt) (c : Condition) (bl : Block) (o : OptIf),
        blockTargetsIn st.symbols bl = true → optTargetsIn st.symbols o = true →
        (∀ st', processIf (fuel + 1) st c bl o = .ok st' → st'.symbols = st.symbols)
        ∧ (∀ r, processIf (fuel + 1) st c bl o = .error r → BenignFault r) := by
      intro st c bl o htgb htgo
      constructor
      · intro st' h
        simp only [processIf] at h
        split at h
        · exact Except.noConfusion h
        · split at h
          · exact (IHblock st bl htgb).1 st' h
          · split at h
            · rename_i elseIfStatement
              exact (IHelse st elseIfStatement htgo).1 st' h
            · rw [Except.ok.injEq] at h
              subst h
              rfl
      · intro r h
        simp only [processIf] at h
        split at h
        · rename_i e' h1
          rw [Except.error.injEq] at h
          subst h
          rcases processCondition_err st.scope c e' h1 with ⟨m, hm⟩ | ⟨n, hn⟩
          · exact Or.inl ⟨m, hm⟩
          · exact Or.inr (Or.inl ⟨n, hn⟩)
        · split at h
          · exact (IHblock st bl htgb).2 r h
          · split at h
            · rename_i elseIfStatement
              exact (IHelse st elseIfStatement htgo).2 r h
            · exact Except.noConfusion h
    have Helse : ∀ (st : EvalSt) (ifs : IfStatement), chainTargetsIn st.symbols ifs = true →
        (∀ st', processElseIf (fuel + 1) st ifs = .ok st' → st'.symbols = st.symbols)
        ∧ (∀ r, processElseIf (fuel + 1) st ifs = .error r → BenignFault r) := by
      intro st ifs htg
      cases ifs with
      | If c bl o =>
        simp only [chainTargetsIn, Bool.and_eq_true] at htg
        have := IHif st c bl o htg.1 htg.2
        exact ⟨fun st' h => this.1 st' (by simpa [processElseIf] using h),
          fun r h => this.2 r (by simpa [processElseIf] using h)⟩
      | ElseIf c bl o =>
        simp only [chainTargetsIn, Bool.and_eq_true] at htg
        have := IHif st c bl o htg.1 htg.2
        exact ⟨fun st' h => this.1 st' (by simpa [processElseIf] using h),
          fun r h => this.2 r (by simpa [processElseIf] using h)⟩
      | Else bl =>
        have htg' : blockTargetsIn st.symbols bl = true := htg
        have := IHblock st bl htg'
        exact ⟨fun st' h => this.1 st' (by simpa [processElseIf] using h),
          fun r h => this.2 r (by simpa [processElseIf] using h)⟩
    exact ⟨Hblock, Hstmt, Hwhile, Hif, Helse⟩

/-- C1, counterexample to the claim as stated: in the program
`if 1 == 2 then print 1; else let y = 2; end y = 3;` the variable `y` is
declared by a `let` (inside the else body) before the assignment `y = 3;`,
yet the symbol-resolution pass faults — the resolver never visits elseif/else
clause bodies, so the declaration is not registered. -/
theorem spec_C1_cex :
    run "if 1 == 2 then print 1; else let y = 2; end y = 3;" 100
      = .error "Referenced symbol y before assignment" :=
  rfl

/-- C1 (amended): for every program in which, in source order, every
identifier used in an expression and every let/assignment target is declared
by an earlier `let`, and no `let` occurs anywhere inside an elseif/else
clause body (positions the resolver never visits), the symbol-resolution
pass completes without fault; and evaluation (at any fuel bound) faults only
on an operand-type mismatch, on use of a declared identifier that has not
yet been assigned at runtime, or by exhausting the fuel bound (the model's
stand-in for a non-terminating loop). -/
theorem spec_C1 (b : Block) (env' : List String)
    (h : declCheckBlock [] b = some env') :
    (∃ tbl', resolveBlock [] b = .ok tbl')
    ∧ (∀ (tbl' : List String) (fuel : Nat) (r : RtErr), resolveBlock [] b = .ok tbl' →
        processBlock fuel ⟨tbl', [], []⟩ b = .error r → BenignFault r) := by
  obtain ⟨tbl0, hres0, hsub0, _⟩ :=
    declCheck_resolveBlock [] b env' [] h (fun n hn => hn)
  constructor
  · exact ⟨tbl0, hres0⟩
  · intro tbl' fuel r hres hrun
    rw [hres0, Except.ok.injEq] at hres
    subst hres
    have hlets : ∀ n, n ∈ blockLetNames b → n ∈ tbl0 :=
      fun n hn => (resolveBlock_mem [] b tbl0 hres0 n).mpr (Or.inr hn)
    have htargets : blockTargetsIn tbl0 b = true :=
      declCheckBlock_targets [] b env' tbl0 h hsub0 hlets
    exact ((evalClasses fuel).1 ⟨tbl0, [], []⟩ b htargets).2 r hrun

/-- C1 witness: the program `let x = 1; x = 2;` satisfies the declaredness
hypothesis, and its resolution succeeds. -/
theorem spec_C1_witness :
    ∃ tbl', resolveBlock []
      (.cons (.Let "x" (.Literal (.Number "1")))
        (.cons (.Assignment "x" (.Literal (.Number "2"))) .nil)) = .ok tbl' :=
  (spec_C1 (.cons (.Let "x" (.Literal (.Number "1")))
      (.cons (.Assignment "x" (.Literal (.Number "2"))) .nil)) ["x"] rfl).1

end RustInterp
